import Mathlib

/-!
Verification development for the box-tree construction and normalization
core of weasy/boxes.py (WeasyPrint). The Python module is shallowly
embedded: text is modelled as lists of characters, the regular-expression
rewrites of process_whitespace as recursive scanning functions with the
same leftmost-match semantics, the pure tree passes (dom_to_box,
process_whitespace, inline_in_block) as recursive functions on an
inductive box tree, and the in-place splitting pass (block_in_inline) as
a fuelled interpreter over an explicit heap of box records and list
objects, which mirrors the mutable object graph of the source (parent
back references, children lists as mutable list objects, live iteration
over children lists).
-/

namespace Weasy

/-! ### Character-level helpers for the white-space processing model -/

/-- Non-breaking space, written as a backslash-xA0 literal in the source. -/
def nbsp : Char := '\u00A0'

/-- Zero-width space, the line-break-opportunity marker of the source. -/
def zwsp : Char := '\u200B'

/-- The characters matched by the character class of tab, carriage return
and space used in the newline-collapsing regular expression. -/
def isBlank (c : Char) : Bool := c = '\t' || c = '\r' || c = ' '

/-- Attempt to match the pattern of zero or more blanks followed by a
newline at the head of the list; on success return the remainder after
the newline.  This is the leftmost-match test of the regular expression
that rewrites runs of blanks around a newline. -/
def matchNl : List Char → Option (List Char)
  | [] => none
  | c :: rest => if c = '\n' then some rest
                 else if isBlank c then matchNl rest
                 else none

/-- Drop the maximal leading run of blank characters (the greedy trailing
part of the newline-collapsing pattern). -/
def dropBlanks : List Char → List Char
  | [] => []
  | c :: rest => if isBlank c then dropBlanks rest else c :: rest

/-- Fuelled worker for the newline-collapsing substitution: at each
position try the match; on success emit one newline, drop the greedy
trailing blanks and resume after them; otherwise emit the character and
move one position right.  The fuel makes the recursion structural; one
unit per position suffices. -/
def collapseNlF : Nat → List Char → List Char
  | 0, s => s
  | _+1, [] => []
  | fuel+1, c :: rest =>
    match matchNl (c :: rest) with
    | some rem => '\n' :: collapseNlF fuel (dropBlanks rem)
    | none => c :: collapseNlF fuel rest

/-- Model of the substitution rewriting every occurrence of
blanks-newline-blanks to a single newline, with the scanning semantics
of the regular-expression engine. -/
def collapseNl (s : List Char) : List Char := collapseNlF s.length s

/-- Drop the maximal leading run of spaces. -/
def dropSpaces : List Char → List Char
  | [] => []
  | c :: rest => if c = ' ' then dropSpaces rest else c :: rest

/-- Fuelled worker for the space-collapsing substitution. -/
def collapseSpF : Nat → List Char → List Char
  | 0, s => s
  | _+1, [] => []
  | fuel+1, c :: rest =>
    if c = ' ' then ' ' :: collapseSpF fuel (dropSpaces rest)
    else c :: collapseSpF fuel rest

/-- Model of the substitution collapsing every run of one or more spaces
to exactly one space. -/
def collapseSp (s : List Char) : List Char := collapseSpF s.length s

/-- Replace every occurrence of one character by another, the model of
the single-character replace calls of the source. -/
def replaceChar (s : List Char) (a b : Char) : List Char :=
  s.map (fun c => if c = a then b else c)

/-- Model of the pre-wrap substitution: a non-breaking space followed by
either a character that is not a non-breaking space or the end of the
text receives a zero-width space right after the non-breaking space.
Scanning resumes after the consumed text, as the engine does. -/
def preWrapSub : List Char → List Char
  | [] => []
  | [c] => if c = nbsp then [nbsp, zwsp] else [c]
  | c :: d :: rest' =>
    if c = nbsp then
      if d = nbsp then nbsp :: preWrapSub (d :: rest')
      else nbsp :: zwsp :: d :: preWrapSub rest'
    else c :: preWrapSub (d :: rest')

/-- True when the list starts with a space. -/
def startsWithSpace : List Char → Bool
  | ' ' :: _ => true
  | _ => false

/-- True when the list ends with a space. -/
def endsWithSpace (s : List Char) : Bool := s.getLast? = some ' '

/-- The per-text-box step of process_whitespace: given the white-space
handling mode, the text and the incoming collapsible-space flag, return
the transformed text and the outgoing flag.  A direct translation of the
body of the loop of process_whitespace. -/
def processText (handling : String) (text : List Char) (pending : Bool) :
    List Char × Bool :=
  let t1 := collapseNl text
  let t2 :=
    if handling = "pre" || handling = "pre-wrap" then
      let r := replaceChar t1 ' ' nbsp
      if handling = "pre-wrap" then preWrapSub r else r
    else if handling = "normal" || handling = "nowrap" then
      replaceChar t1 '\n' ' '
    else t1
  if handling = "normal" || handling = "nowrap" || handling = "pre-line" then
    let t3 := replaceChar t2 '\t' ' '
    let t4 := collapseSp t3
    let t5 := if pending && startsWithSpace t4 then t4.drop 1 else t4
    (t5, endsWithSpace t5)
  else
    (t2, false)

/-! ### Styled elements and the box data model -/

mutual

/-- A styled element: the computed display and white-space keywords, the
leading text content, the tail text content attached after the element,
and the child elements in document order. -/
inductive Element where
  | mk (display : String) (white_space : String) (text : Option (List Char))
       (tail : Option (List Char)) (children : ElemList)

/-- A list of sibling elements, mutual with Element so that the
recursive passes are structural. -/
inductive ElemList where
  | nil
  | cons (e : Element) (rest : ElemList)

end

def Element.display : Element → String
  | .mk d _ _ _ _ => d

def Element.white_space : Element → String
  | .mk _ ws _ _ _ => ws

def Element.text : Element → Option (List Char)
  | .mk _ _ t _ _ => t

def Element.tail : Element → Option (List Char)
  | .mk _ _ _ t _ => t

def Element.children : Element → ElemList
  | .mk _ _ _ _ cs => cs

def ElemList.toList : ElemList → List Element
  | .nil => []
  | .cons e rest => e :: rest.toList

/-- Python truthiness of an optional string: an absent or empty string is
falsy. -/
def truthy : Option (List Char) → Bool
  | none => false
  | some l => !l.isEmpty

/-- The concrete box classes of the source.  TextBox is listed as a kind
of its own; the class hierarchy is recovered by the instance predicates
below. -/
inductive BoxKind where
  | blockBox
  | anonymousBlockBox
  | lineBox
  | inlineBox
  | inlineBlockBox
  | textBox
  | blockLevelReplacedBox
  | inlineLevelReplacedBox
deriving DecidableEq

/-- Instance test for BlockLevelBox: BlockBox, AnonymousBlockBox and
BlockLevelReplacedBox inherit from it. -/
def BoxKind.isBlockLevel : BoxKind → Bool
  | .blockBox | .anonymousBlockBox | .blockLevelReplacedBox => true
  | _ => false

/-- Instance test for BlockContainerBox: BlockBox, AnonymousBlockBox and
InlineBlockBox inherit from it. -/
def BoxKind.isBlockContainer : BoxKind → Bool
  | .blockBox | .anonymousBlockBox | .inlineBlockBox => true
  | _ => false

/-- Instance test for InlineBox: InlineBox itself and TextBox, which
inherits from it. -/
def BoxKind.isInlineBoxInst : BoxKind → Bool
  | .inlineBox | .textBox => true
  | _ => false

mutual

/-- A box as a pure tree value: its class, the originating element, the
children attribute (absent for text boxes, as in the source where it is
set to None) and the text attribute (present only for text boxes). -/
inductive Box where
  | mk (kind : BoxKind) (elem : Element) (children : Kids)
       (text : Option (List Char))

/-- The children attribute of a box: either absent, as on text boxes
where the source sets it to None, or a list of boxes.  A dedicated type
inside the mutual block keeps the recursors free of nesting. -/
inductive Kids where
  | none
  | some (l : BoxList)

/-- A list of sibling boxes, mutual with Box so that the recursive
passes are structural. -/
inductive BoxList where
  | nil
  | cons (b : Box) (rest : BoxList)

end

/-- The children list with a default, mirroring reads of the form
children or an empty list. -/
def Kids.getD : Kids → BoxList → BoxList
  | .none, d => d
  | .some l, _ => l

def Box.kind : Box → BoxKind
  | .mk k _ _ _ => k

def Box.elem : Box → Element
  | .mk _ e _ _ => e

def Box.children : Box → Kids
  | .mk _ _ cs _ => cs

def Box.text : Box → Option (List Char)
  | .mk _ _ _ t => t

def BoxList.toList : BoxList → List Box
  | .nil => []
  | .cons b rest => b :: rest.toList

def BoxList.append : BoxList → BoxList → BoxList
  | .nil, l => l
  | .cons b rest, l => .cons b (rest.append l)

def BoxList.isEmpty : BoxList → Bool
  | .nil => true
  | .cons _ _ => false

def BoxList.length : BoxList → Nat
  | .nil => 0
  | .cons _ rest => rest.length + 1

def BoxList.get? : BoxList → Nat → Option Box
  | .nil, _ => none
  | .cons b _, 0 => some b
  | .cons _ rest, n+1 => rest.get? n

/-- Construct a TextBox: children set to None, text set. -/
def mkTextBox (e : Element) (t : List Char) : Box :=
  .mk .textBox e .none (some t)

/-! ### The box-tree builder dom_to_box -/

/-- The two failure modes of dom_to_box: the assertion that display is
not none, and the explicit unsupported-display rejection. -/
inductive BuildError where
  | displayNoneAssert
  | unsupportedDisplay (d : String)
deriving DecidableEq

mutual

/-- Translation of dom_to_box: select the box class from the display
keyword, add a leading text box for the element text, then the child
contributions in document order. -/
def dom_to_box : Element → Except BuildError Box
  | .mk d ws txt tl cs =>
    if d = "none" then .error .displayNoneAssert
    else
      let kindSel : Option BoxKind :=
        if d = "block" || d = "list-item" then some .blockBox
        else if d = "inline" then some .inlineBox
        else if d = "inline-block" then some .inlineBlockBox
        else none
      match kindSel with
      | none => .error (.unsupportedDisplay d)
      | some k => do
        let e := Element.mk d ws txt tl cs
        let kids ← domChildren e cs
        let lead := if truthy txt then BoxList.cons (mkTextBox e (txt.getD [])) .nil
                    else .nil
        pure (.mk k e (.some (lead.append kids)) none)

/-- The child loop of dom_to_box: a child whose display is not none
contributes its recursively built box; a truthy tail on the child
contributes a text box owned by the parent element, in both cases. -/
def domChildren (pe : Element) : ElemList → Except BuildError BoxList
  | .nil => pure .nil
  | .cons c rest => do
    let first ← if c.display ≠ "none" then do
        let cb ← dom_to_box c
        pure (BoxList.cons cb .nil)
      else pure (.nil : BoxList)
    let tb : BoxList := if truthy c.tail then .cons (mkTextBox pe (c.tail.getD [])) .nil
                        else .nil
    let rest' ← domChildren pe rest
    pure (first.append (tb.append rest'))

end

/-! ### The white-space pass over the tree -/

mutual

/-- process_whitespace restricted to one box: handle the box itself when
it carries truthy text, then its children in order, threading the
collapsible-space flag in document (depth-first, box first) order. -/
def pwBox : Box → Bool → Box × Bool
  | .mk k e cs txt, p =>
    let step := if truthy txt then
        let r := processText e.white_space (txt.getD []) p
        (some r.1, r.2)
      else (txt, p)
    match cs with
    | .none => (.mk k e .none step.1, step.2)
    | .some l =>
      let r := pwList l step.2
      (.mk k e (.some r.1) step.1, r.2)

/-- The same pass over a list of sibling boxes, left to right. -/
def pwList : BoxList → Bool → BoxList × Bool
  | .nil, p => (.nil, p)
  | .cons b bs, p =>
    let r := pwBox b p
    let r' := pwList bs r.2
    (.cons r.1 r'.1, r'.2)

end

/-- Whole-tree white-space normalization: the flag starts false. -/
def process_whitespace (b : Box) : Box := (pwBox b false).1

/-! ### inline_in_block -/

/-- The child walk of inline_in_block: thread the rebuilt children list
and the current line-box accumulator.  A block-level child flushes a
non-empty accumulator into an anonymous block wrapping a line box; a
line-box child is merged into the accumulator; any other child is
appended to the accumulator. -/
def iibLoop (e : Element) : BoxList → BoxList → BoxList → BoxList × BoxList
  | .nil, acc, lacc => (acc, lacc)
  | .cons c rest, acc, lacc =>
    if c.kind.isBlockLevel then
      if lacc.isEmpty then iibLoop e rest (acc.append (.cons c .nil)) .nil
      else
        iibLoop e rest
          (acc.append (.cons (Box.mk .anonymousBlockBox e
                        (.some (.cons (Box.mk .lineBox e (.some lacc) none) .nil)) none)
                      (.cons c .nil))) .nil
    else if c.kind = .lineBox then
      iibLoop e rest acc (lacc.append ((c.children).getD .nil))
    else
      iibLoop e rest acc (lacc.append (.cons c .nil))

mutual

/-- Translation of inline_in_block: recurse into the children first,
return unchanged when the box is not a block container, otherwise walk
the children and flush a trailing accumulator, as a bare line box when
no block-level child was seen and wrapped in an anonymous block
otherwise. -/
def inline_in_block : Box → Box
  | .mk k e cs txt =>
    match cs with
    | .none => .mk k e .none txt
    | .some l =>
      let l' := iibList l
      if !k.isBlockContainer then .mk k e (.some l') txt
      else
        let r := iibLoop e l' .nil .nil
        let final :=
          if !r.2.isEmpty then
            if !r.1.isEmpty then
              r.1.append (.cons (Box.mk .anonymousBlockBox e
                (.some (.cons (Box.mk .lineBox e (.some r.2) none) .nil)) none) .nil)
            else .cons (Box.mk .lineBox e (.some r.2) none) .nil
          else r.1
        .mk k e (.some final) txt

/-- The recursion of inline_in_block over a children list. -/
def iibList : BoxList → BoxList
  | .nil => .nil
  | .cons b bs => .cons (inline_in_block b) (iibList bs)

end

/-! ### Heap model of the mutable object graph

The splitting pass mutates parent references and children lists in
place, rebinding some lists (slicing) while mutating others (append,
insert, remove) under live iterators.  The heap keeps box records and
list objects separately so that rebinding a children attribute to a
fresh list is distinguishable from mutating the list object, exactly as
in the source language. -/

/-- One box record: class, originating element, parent reference,
reference to the children list object (absent for text boxes) and the
text attribute. -/
structure BoxData where
  kind : BoxKind
  elem : Element
  parent : Option Nat
  childrenRef : Option Nat
  text : Option (List Char)

/-- The object heap: box records and list objects, addressed by index. -/
structure Heap where
  boxes : List BoxData
  lists : List (List Nat)

def emptyHeap : Heap := ⟨[], []⟩

def Heap.box? (h : Heap) (i : Nat) : Option BoxData := h.boxes[i]?

def Heap.list (h : Heap) (r : Nat) : List Nat := (h.lists[r]?).getD []

/-- Mutate a list object in place. -/
def Heap.setList (h : Heap) (r : Nat) (l : List Nat) : Heap :=
  ⟨h.boxes, h.lists.set r l⟩

/-- Allocate a fresh list object. -/
def Heap.newList (h : Heap) (l : List Nat) : Nat × Heap :=
  (h.lists.length, ⟨h.boxes, h.lists ++ [l]⟩)

def parentOf (h : Heap) (i : Nat) : Option Nat :=
  match h.box? i with
  | some b => b.parent
  | none => none

def setParentOf (h : Heap) (i : Nat) (p : Option Nat) : Heap :=
  match h.box? i with
  | some b => ⟨h.boxes.set i ⟨b.kind, b.elem, p, b.childrenRef, b.text⟩, h.lists⟩
  | none => h

def setChildrenRef (h : Heap) (i : Nat) (r : Option Nat) : Heap :=
  match h.box? i with
  | some b => ⟨h.boxes.set i ⟨b.kind, b.elem, b.parent, r, b.text⟩, h.lists⟩
  | none => h

/-- Allocate a box: as in the constructor of the source, the parent
starts absent and the children attribute is a fresh empty list. -/
def Heap.allocBox (h : Heap) (k : BoxKind) (e : Element) : Nat × Heap :=
  let rl := h.newList []
  (rl.2.boxes.length,
   ⟨rl.2.boxes ++ [⟨k, e, none, some rl.1, none⟩], rl.2.lists⟩)

/-- Insertion with the clamping semantics of list insert: an index past
the end appends. -/
def pyInsert (l : List Nat) (idx : Nat) (x : Nat) : List Nat :=
  l.take idx ++ [x] ++ l.drop idx

/-- Translation of add_child: set the parent of the child, then append
to or insert into the children list object of the receiver.  Fails when
the receiver has no children list (a leaf-only box). -/
def add_child (h : Heap) (selfId childId : Nat) (index : Option Nat) :
    Option Heap := do
  let _ ← h.box? childId
  let h1 := setParentOf h childId (some selfId)
  let sb ← h1.box? selfId
  let r ← sb.childrenRef
  let l := h1.list r
  match index with
  | none => some (h1.setList r (l ++ [childId]))
  | some i => some (h1.setList r (pyInsert l i childId))

/-- The index property: position of a box in its parent children list;
fails when there is no parent or the box is not in the list. -/
def boxIndex (h : Heap) (i : Nat) : Option Nat := do
  let p ← parentOf h i
  let pb ← h.box? p
  let r ← pb.childrenRef
  (h.list r).findIdx? (fun x => x == i)

/-- Remove a box from the children list object of a parent, in place;
fails when the box is absent, as list remove does. -/
def removeFromChildren (h : Heap) (p c : Nat) : Option Heap := do
  let pb ← h.box? p
  let r ← pb.childrenRef
  let l := h.list r
  if l.contains c then some (h.setList r (l.erase c)) else none

/-! ### Loading a pure tree into the heap and extracting it back -/

mutual

def loadBox (h : Heap) (parent : Option Nat) : Box → Nat × Heap
  | .mk k e cs txt =>
    match cs with
    | .none =>
      (h.boxes.length, ⟨h.boxes ++ [⟨k, e, parent, none, txt⟩], h.lists⟩)
    | .some l =>
      let i := h.boxes.length
      let h1 : Heap := ⟨h.boxes ++ [⟨k, e, parent, none, txt⟩], h.lists⟩
      let r := loadList h1 i l
      let rl := r.2.newList r.1
      (i, setChildrenRef rl.2 i (some rl.1))

def loadList (h : Heap) (parent : Nat) : BoxList → List Nat × Heap
  | .nil => ([], h)
  | .cons b bs =>
    let r := loadBox h (some parent) b
    let r' := loadList r.2 parent bs
    (r.1 :: r'.1, r'.2)

end

/-- Rebuild pure trees for a list of roots from the heap, with fuel
against reference cycles. -/
def extractL : Nat → Heap → List Nat → Option BoxList
  | 0, _, _ => none
  | _+1, _, [] => some .nil
  | fuel+1, h, i :: rest => do
    let b ← h.box? i
    let hd ← match b.childrenRef with
      | none => some (Box.mk b.kind b.elem .none b.text)
      | some r => do
        let cs ← extractL fuel h (h.list r)
        some (Box.mk b.kind b.elem (.some cs) b.text)
    let tl ← extractL fuel h rest
    some (.cons hd tl)

/-- Rebuild one pure tree from the heap. -/
def extract (fuel : Nat) (h : Heap) (i : Nat) : Option Box :=
  match extractL fuel h [i] with
  | some (.cons b .nil) => some b
  | _ => none

/-! ### The phases of block_in_inline -/

/-- Walk the ancestors of a box, collecting every ancestor visited until
the first one that is not an InlineBox; that one is asserted to be a
LineBox and is the enclosing line box.  The collected list includes the
line box itself, as in the source where the append precedes the break.
Fails when the chain ends before a line box is found or the assertion
fails. -/
def biiCollect : Nat → Heap → Nat → List Nat → Option (List Nat × Nat)
  | 0, _, _, _ => none
  | fuel+1, h, cur, acc =>
    match parentOf h cur with
    | none => none
    | some p =>
      match h.box? p with
      | none => none
      | some pb =>
        if pb.kind.isInlineBoxInst then biiCollect fuel h p (acc ++ [p])
        else if pb.kind = .lineBox then some (acc ++ [p], p)
        else none

/-- Ensure an anonymous block before the line box: reuse the parent when
it is already an AnonymousBlockBox, otherwise synthesize one, insert it
at the former index of the line box, remove the line box from its parent
children and re-parent it under the new anonymous block. -/
def biiPrevAnon (h : Heap) (lineId : Nat) : Option (Nat × Heap) := do
  let lp ← parentOf h lineId
  let lpb ← h.box? lp
  if lpb.kind = .anonymousBlockBox then
    some (lp, h)
  else do
    let lb ← h.box? lineId
    let a := h.allocBox .anonymousBlockBox lb.elem
    let idx ← boxIndex a.2 lineId
    let h ← add_child a.2 lp a.1 (some idx)
    let h ← removeFromChildren h lp lineId
    let h ← add_child h a.1 lineId none
    some (a.1, h)

/-- Synthesize the anonymous block after the split, inserted right after
the before-anonymous block in its parent. -/
def biiNextAnon (h : Heap) (lineId prev : Nat) : Option (Nat × Heap) := do
  let lb ← h.box? lineId
  let a := h.allocBox .anonymousBlockBox lb.elem
  let h := a.2
  let pp ← parentOf h prev
  let idx ← boxIndex h prev
  let h ← add_child h pp a.1 (some (idx+1))
  some (a.1, h)

/-- The clone-rebuilding loop of block_in_inline: pop the collected
ancestors from the far end and chain one fresh clone per ancestor, of
the same class and element, under the current clone box.  Returns the
innermost clone.  The argument list is the collected ancestor list
already reversed, matching the pop-from-the-end loop. -/
def cloneLoop (h : Heap) (cloneBox : Nat) : List Nat → Option (Nat × Heap)
  | [] => some (cloneBox, h)
  | p :: rest => do
    let pb ← h.box? p
    let a := h.allocBox pb.kind pb.elem
    let h ← add_child a.2 cloneBox a.1 none
    cloneLoop h a.1 rest

/-- The moving loop: walk the ancestors from the split box up to the
line box; at each level keep the children up to the splitter (a fresh
list, rebinding the attribute) and move the following children into the
current clone, then ascend one level in both chains. -/
def biiMove : Nat → Heap → Nat → Option Nat → Nat → Option Heap
  | 0, _, _, _, _ => none
  | fuel+1, h, s, cb, lineId =>
    match parentOf h s with
    | none => some h
    | some p =>
      if p = lineId then some h
      else do
        let pb ← h.box? p
        let r ← pb.childrenRef
        let l := h.list r
        let idx ← l.findIdx? (fun x => x == s)
        let tail := l.drop (idx+1)
        let nl := h.newList (l.take (idx+1))
        let h := setChildrenRef nl.2 p (some nl.1)
        let cbId ← cb
        let h ← tail.foldlM (fun hh c => add_child hh cbId c none) h
        biiMove fuel h p (parentOf h cbId) lineId

/-- The final step: detach the block box from its parent and insert it
right after the before-anonymous block. -/
def biiFinal (h : Heap) (boxId prev : Nat) : Option Heap := do
  let bp ← parentOf h boxId
  let h ← removeFromChildren h bp boxId
  let pp ← parentOf h prev
  let idx ← boxIndex h prev
  add_child h pp boxId (some (idx+1))

/-- The guard and splitting phases of block_in_inline, run on a box
after its children were processed: when a block-level box sits directly
in an InlineBox, collect the inline ancestry, place the anonymous blocks
around the line box, rebuild the clone chain, move the tail children and
re-insert the block. -/
def biiRestructure (h : Heap) (b : Nat) : Option Heap := do
  let bd ← h.box? b
  match bd.parent with
  | none => some h
  | some p => do
    let pb ← h.box? p
    if !(bd.kind.isBlockLevel && pb.kind.isInlineBoxInst) then some h
    else do
      let col ← biiCollect (h.boxes.length + 1) h b []
      let pr ← biiPrevAnon h col.2
      let nx ← biiNextAnon pr.2 col.2 pr.1
      let cl ← cloneLoop nx.2 nx.1 col.1.reverse
      let h ← biiMove (cl.2.boxes.length + 1) cl.2 b (some cl.1) col.2
      biiFinal h b pr.1

/-- Either a recursive visit of one box or the iteration over one
children list object from a given index; a single fuelled function so
that the recursion is structural. -/
inductive BiiCall where
  | go (b : Nat)
  | loop (r : Nat) (i : Nat)

/-- Translation of block_in_inline on the heap: a visit first iterates
over the children list object, recursing into each child read live from
the heap at its current index with the iterator semantics of the source
language, then tests the guard and restructures. -/
def biiRun : Nat → BiiCall → Heap → Option Heap
  | 0, _, _ => none
  | fuel+1, .go b, h => do
    let bd ← h.box? b
    let h ← match bd.childrenRef with
            | none => some h
            | some r => biiRun fuel (.loop r 0) h
    biiRestructure h b
  | fuel+1, .loop r i, h =>
    match (h.list r)[i]? with
    | none => some h
    | some c => do
      let h ← biiRun fuel (.go c) h
      biiRun fuel (.loop r (i+1)) h

/-- block_in_inline on a pure tree: load it into a fresh heap, run the
interpreter, extract the result. -/
def block_in_inline (fuel : Nat) (b : Box) : Option Box :=
  let r := loadBox emptyHeap none b
  match biiRun fuel (.go r.1) r.2 with
  | none => none
  | some h => extract fuel h r.1

/-- The full pipeline in the order of the specified control flow: build,
white-space normalization, inline_in_block, block_in_inline. -/
def pipeline (fuel : Nat) (e : Element) : Option Box :=
  match dom_to_box e with
  | .error _ => none
  | .ok b => block_in_inline fuel (inline_in_block (process_whitespace b))

/-! ### Path accessors used to state concrete facts about result trees -/

def childAt (b : Box) (i : Nat) : Option Box := (b.children.getD .nil).get? i

def boxAtPath : Box → List Nat → Option Box
  | b, [] => some b
  | b, i :: rest =>
    match childAt b i with
    | none => none
    | some c => boxAtPath c rest

def kindAtPath (b : Box) (p : List Nat) : Option BoxKind :=
  (boxAtPath b p).map Box.kind

def textAtPath (b : Box) (p : List Nat) : Option (List Char) :=
  (boxAtPath b p).bind Box.text

def childCountAtPath (b : Box) (p : List Nat) : Option Nat :=
  (boxAtPath b p).map (fun x => (x.children.getD .nil).length)

/-! ### Specification-side definitions for individual claims -/

/-- A pair of adjacent characters is clean when no blank touches a
newline; the newline-collapsing substitution leaves exactly the clean
texts unchanged. -/
def pairOk (a b : Char) : Bool :=
  !(isBlank a && b = '\n') && !(a = '\n' && isBlank b)

/-- Every pair of adjacent characters is clean. -/
def goodNlB : List Char → Bool
  | [] => true
  | [_] => true
  | a :: b :: rest => pairOk a b && goodNlB (b :: rest)

/-- No two adjacent spaces; the space-collapsing substitution leaves
exactly such texts unchanged. -/
def noDbl : List Char → Bool
  | [] => true
  | [_] => true
  | a :: b :: rest => !(a = ' ' && b = ' ') && noDbl (b :: rest)

/-- The character does not occur in the text. -/
def noChar (a : Char) (s : List Char) : Bool :=
  s.all (fun c => !(c = a))

mutual

/-- The side conditions of the idempotence claim, computed along the
same traversal as the white-space pass: every processed text box has a
mode other than pre-wrap and a non-empty result; the second component
threads the collapsible-space flag exactly as the pass does. -/
def pwOkBox : Box → Bool → Bool × Bool
  | .mk _ e cs txt, p =>
    let step := if truthy txt then
        let r := processText e.white_space (txt.getD []) p
        ((!(e.white_space = "pre-wrap")) && !r.1.isEmpty, r.2)
      else (true, p)
    match cs with
    | .none => (step.1, step.2)
    | .some l =>
      let r := pwOkList l step.2
      (step.1 && r.1, r.2)

/-- The side conditions over a list of sibling boxes. -/
def pwOkList : BoxList → Bool → Bool × Bool
  | .nil, p => (true, p)
  | .cons b bs, p =>
    let r := pwOkBox b p
    let r' := pwOkList bs r.2
    (r.1 && r'.1, r'.2)

end

/-- The tail contribution of one child element in the builder: one text
box owned by the parent element when the tail is truthy, nothing
otherwise. -/
def tailContrib (pe c : Element) : List Box :=
  if truthy c.tail then [mkTextBox pe (c.tail.getD [])] else []

/-- What one child element contributes to the children of its parent in
dom_to_box: nothing but the tail text box when its display is none, its
recursively built box followed by the tail text box otherwise. -/
def childContrib (pe : Element) (c : Element) (piece : List Box) : Prop :=
  (c.display = "none" ∧ piece = tailContrib pe c) ∨
  (c.display ≠ "none" ∧ ∃ cb, dom_to_box c = Except.ok cb ∧ piece = cb :: tailContrib pe c)

/-- Modelled from the words of claim C5, inclusive reading: insert a
zero-width space immediately after every maximal run of non-breaking
spaces, also after a run that abuts the end of the text.  Fuelled
worker. -/
def markRunsF : Nat → List Char → List Char
  | 0, s => s
  | _+1, [] => []
  | fuel+1, c :: cs =>
    if c = nbsp then
      nbsp :: (cs.takeWhile (fun x => x = nbsp) ++
               zwsp :: markRunsF fuel (cs.dropWhile (fun x => x = nbsp)))
    else c :: markRunsF fuel cs

/-- Marker after every maximal run of non-breaking spaces, including a
final run. -/
def markRuns (s : List Char) : List Char := markRunsF s.length s

/-- Modelled from the words of claim C5 as stated: insert a zero-width
space immediately after every maximal run of non-breaking spaces,
except after a run that abuts the end of the text.  Fuelled worker. -/
def markRunsExceptEndF : Nat → List Char → List Char
  | 0, s => s
  | _+1, [] => []
  | fuel+1, c :: cs =>
    if c = nbsp then
      let run := nbsp :: cs.takeWhile (fun x => x = nbsp)
      let rest := cs.dropWhile (fun x => x = nbsp)
      if rest.isEmpty then run
      else run ++ zwsp :: markRunsExceptEndF fuel rest
    else c :: markRunsExceptEndF fuel cs

/-- Marker after every maximal run of non-breaking spaces except a
final run. -/
def markRunsExceptEnd (s : List Char) : List Char := markRunsExceptEndF s.length s

/-! ### Concrete inputs used by the claim theorems -/

/-- The em element of the scenario paragraph: display inline, leading
text, and the tail text that follows its closing tag. -/
def emElement : Element :=
  .mk "inline" "normal" (some "emphasised".toList) (some " text.".toList) .nil

/-- The p element of the scenario paragraph: display block, leading
text, one child. -/
def pElement : Element :=
  .mk "block" "normal" (some "Some ".toList) none (.cons emElement .nil)

/-- The tree the pipeline actually produces for the scenario paragraph:
the block box holds the line box directly, with no anonymous block. -/
def c2Result : Box :=
  .mk .blockBox pElement
    (.some (.cons (.mk .lineBox pElement
      (.some (.cons (mkTextBox pElement "Some ".toList)
             (.cons (.mk .inlineBox emElement
                      (.some (.cons (mkTextBox emElement "emphasised".toList) .nil)) none)
              (.cons (mkTextBox pElement " text.".toList) .nil)))) none) .nil)) none

/-- An element with display inline and normal white space. -/
def inlineNormalElement : Element := .mk "inline" "normal" none none .nil

/-- An element with display block and normal white space. -/
def blockNormalElement : Element := .mk "block" "normal" none none .nil

/-- An element with pre-wrap white space. -/
def preWrapElement : Element := .mk "inline" "pre-wrap" none none .nil

/-- Two adjacent text boxes in normal mode, the first ending and the
second starting with a space. -/
def c8Tree : Box :=
  .mk .blockBox blockNormalElement
    (.some (.cons (mkTextBox inlineNormalElement "a ".toList)
           (.cons (mkTextBox inlineNormalElement " b".toList) .nil))) none

/-- A single pre-wrap text box, input of the first idempotence
counterexample. -/
def c3PreWrapTree : Box :=
  .mk .blockBox blockNormalElement
    (.some (.cons (mkTextBox preWrapElement "a ".toList) .nil)) none

/-- Three normal text boxes where the middle one collapses to the empty
string, input of the second idempotence counterexample. -/
def c3EmptyTree : Box :=
  .mk .blockBox blockNormalElement
    (.some (.cons (mkTextBox inlineNormalElement "a ".toList)
           (.cons (mkTextBox inlineNormalElement " ".toList)
            (.cons (mkTextBox inlineNormalElement " b".toList) .nil)))) none

/-- A child element with display none carrying tail text. -/
def noneChildElement : Element :=
  .mk "none" "normal" (some "hidden".toList) (some "x".toList) .nil

/-- A block parent whose only child has display none and a tail. -/
def noneParentElement : Element :=
  .mk "block" "normal" none none (.cons noneChildElement .nil)

/-- An element used for the boxes of the concrete add_child heap. -/
def plainBlockElement : Element := .mk "block" "normal" none none .nil

/-- A concrete heap: box 2 is a child of box 0 (it sits in list 0, the
children list of box 0); box 1 has the empty children list 1. -/
def c9Heap : Heap :=
  ⟨[⟨.blockBox, plainBlockElement, none, some 0, none⟩,
    ⟨.blockBox, plainBlockElement, none, some 1, none⟩,
    ⟨.inlineBox, plainBlockElement, some 0, none, none⟩],
   [[2], []]⟩

/-- The heap after add_child re-parents box 2 under box 1: box 2 now
sits in both children lists. -/
def c9HeapAfter : Heap :=
  ⟨[⟨.blockBox, plainBlockElement, none, some 0, none⟩,
    ⟨.blockBox, plainBlockElement, none, some 1, none⟩,
    ⟨.inlineBox, plainBlockElement, some 1, none, none⟩],
   [[2], [2]]⟩

/-- The raw tree dom_to_box builds for the scenario paragraph, before
normalization. -/
def pBuiltBox : Box :=
  .mk .blockBox pElement
    (.some (.cons (mkTextBox pElement "Some ".toList)
           (.cons (.mk .inlineBox emElement
                    (.some (.cons (mkTextBox emElement "emphasised".toList) .nil))
                    none)
            (.cons (mkTextBox pElement " text.".toList) .nil)))) none

/-- A block child with leading text and tail text, sitting inside an
inline element: the input that makes block_in_inline fire. -/
def bTailElement : Element :=
  .mk "block" "normal" (some "inner".toList) (some "T2".toList) .nil

/-- The inline element holding the block child. -/
def spanElement : Element :=
  .mk "inline" "normal" (some "T1".toList) none (.cons bTailElement .nil)

/-- The block container around the inline element. -/
def divElement : Element :=
  .mk "block" "normal" none none (.cons spanElement .nil)

/-- The pipeline result on divElement: the after anonymous block at
index 2 holds a clone of the enclosing line box, inside which sits the
clone of the inline ancestor holding the moved tail text. -/
def c4Result : Box :=
  .mk .blockBox divElement (.some (
    .cons (.mk .anonymousBlockBox divElement (.some (
      .cons (.mk .lineBox divElement (.some (
        .cons (.mk .inlineBox spanElement (.some (
          .cons (mkTextBox spanElement "T1".toList) .nil)) none) .nil)) none) .nil)) none)
    (.cons (.mk .blockBox bTailElement (.some (
      .cons (.mk .lineBox bTailElement (.some (
        .cons (mkTextBox bTailElement "inner".toList) .nil)) none) .nil)) none)
    (.cons (.mk .anonymousBlockBox divElement (.some (
      .cons (.mk .lineBox divElement (.some (
        .cons (.mk .inlineBox spanElement (.some (
          .cons (mkTextBox spanElement "T2".toList) .nil)) none) .nil)) none) .nil)) none)
     .nil)))) none

/-- A small heap for the clone-loop witness: box 0 is a fresh anonymous
block (children list 0, empty), box 1 an inline box with children list
1, box 2 a line box with children list 2. -/
def c4CloneHeap : Heap :=
  ⟨[⟨.anonymousBlockBox, divElement, none, some 0, none⟩,
    ⟨.inlineBox, spanElement, none, some 1, none⟩,
    ⟨.lineBox, divElement, none, some 2, none⟩],
   [[], [], []]⟩

/-- The heap after the clone loop ran on the collected ancestors, line
box first: one line-box clone under box 0, one inline-box clone under
it, each with a fresh empty children list except the link to the next
clone. -/
def c4CloneHeapAfter : Heap :=
  ⟨[⟨.anonymousBlockBox, divElement, none, some 0, none⟩,
    ⟨.inlineBox, spanElement, none, some 1, none⟩,
    ⟨.lineBox, divElement, none, some 2, none⟩,
    ⟨.lineBox, divElement, some 0, some 3, none⟩,
    ⟨.inlineBox, spanElement, some 3, some 4, none⟩],
   [[3], [], [], [4], []]⟩

/-! ### Induction principles for the mutual tree types -/

theorem elemListInduct (motive : ElemList → Prop) (hnil : motive .nil)
    (hcons : ∀ e rest, motive rest → motive (.cons e rest)) : ∀ cs, motive cs :=
  fun cs =>
    @ElemList.rec (fun _ => True) motive (fun _ _ _ _ _ _ => trivial) hnil
      (fun e rest _ h => hcons e rest h) cs

theorem boxInduct (P : Box → Prop) (Q : BoxList → Prop)
    (hmkNone : ∀ k e txt, P (.mk k e .none txt))
    (hmkSome : ∀ k e l txt, Q l → P (.mk k e (.some l) txt))
    (hnil : Q .nil)
    (hcons : ∀ b rest, P b → Q rest → Q (.cons b rest)) : ∀ b, P b :=
  fun b =>
    @Box.rec P (fun ks => ∀ l, ks = .some l → Q l) Q
      (fun k e cs txt hk => by
        cases cs with
        | none => exact hmkNone k e txt
        | some l => exact hmkSome k e l txt (hk l rfl))
      (fun l h => by cases h)
      (fun l hq l' h => by cases h; exact hq)
      hnil
      (fun bb rest hb hr => hcons bb rest hb hr) b

theorem boxListInduct (P : Box → Prop) (Q : BoxList → Prop)
    (hmkNone : ∀ k e txt, P (.mk k e .none txt))
    (hmkSome : ∀ k e l txt, Q l → P (.mk k e (.some l) txt))
    (hnil : Q .nil)
    (hcons : ∀ b rest, P b → Q rest → Q (.cons b rest)) : ∀ l, Q l :=
  fun l =>
    @BoxList.rec P (fun ks => ∀ l', ks = .some l' → Q l') Q
      (fun k e cs txt hk => by
        cases cs with
        | none => exact hmkNone k e txt
        | some l' => exact hmkSome k e l' txt (hk l' rfl))
      (fun l' h => by cases h)
      (fun l' hq l'' h => by cases h; exact hq)
      hnil
      (fun bb rest hb hr => hcons bb rest hb hr) l

/-! ### Claim C7: unsupported display values are rejected -/

/-- C7: for every element whose resolved display value lies outside the
recognized set of none, block, list-item, inline and inline-block,
dom_to_box rejects it with the explicit unsupported-display error and
produces no box; it never substitutes a default class. -/
theorem C7_unsupported_display_rejected (e : Element)
    (h : e.display ∉ ["none", "block", "list-item", "inline", "inline-block"]) :
    dom_to_box e = .error (.unsupportedDisplay e.display) := by
  obtain ⟨d, ws, txt, tl, cs⟩ := e
  simp only [Element.display, List.mem_cons, List.not_mem_nil, or_false, not_or] at h
  obtain ⟨h1, h2, h3, h4, h5⟩ := h
  simp [dom_to_box, Element.display, h1, h2, h3, h4, h5]

/-- Witness for C7 at a concrete element with display table-cell. -/
theorem C7_witness :
    (Element.mk "table-cell" "normal" none none .nil).display ∉
      ["none", "block", "list-item", "inline", "inline-block"] ∧
    dom_to_box (Element.mk "table-cell" "normal" none none .nil) =
      .error (.unsupportedDisplay (Element.mk "table-cell" "normal" none none .nil).display) :=
  ⟨by decide, C7_unsupported_display_rejected _ (by decide)⟩

/-! ### Claim C8: collapsible-space state crosses box boundaries -/

/-- C8: two adjacent text boxes in normal mode holding the texts of one
letter and a trailing space, then a leading space and one letter,
normalize to the first text unchanged and the second with the leading
space stripped, because the collapsible-space flag is true after the
first box; the per-box steps carry the flag exactly that way. -/
theorem C8_cross_box_space_collapse :
    process_whitespace c8Tree =
      .mk .blockBox blockNormalElement
        (.some (.cons (mkTextBox inlineNormalElement "a ".toList)
               (.cons (mkTextBox inlineNormalElement "b".toList) .nil))) none ∧
    processText "normal" "a ".toList false = ("a ".toList, true) ∧
    processText "normal" " b".toList true = ("b".toList, false) :=
  ⟨rfl, rfl, rfl⟩

/-! ### Claim C2: the scenario paragraph -/

/-- C2 as stated is refuted: on the scenario paragraph the pipeline
produces a block box whose single child is a bare line box, not an
anonymous block box wrapping a line box. -/
theorem C2_counterexample :
    pipeline 50 pElement = some c2Result ∧
    childCountAtPath c2Result [] = some 1 ∧
    kindAtPath c2Result [0] = some .lineBox ∧
    BoxKind.lineBox ≠ BoxKind.anonymousBlockBox :=
  ⟨rfl, rfl, rfl, by decide⟩

/-- C2 amended: the pipeline on the scenario paragraph yields a block
box whose single child is a line box (no anonymous block, because the
container has only inline-level children) whose three children in order
are the text box of the leading text, the inline box holding the
emphasised text box, and the text box of the tail text. -/
theorem C2_amended_paragraph_shape :
    pipeline 50 pElement = some c2Result ∧
    kindAtPath c2Result [] = some .blockBox ∧
    childCountAtPath c2Result [] = some 1 ∧
    kindAtPath c2Result [0] = some .lineBox ∧
    childCountAtPath c2Result [0] = some 3 ∧
    kindAtPath c2Result [0, 0] = some .textBox ∧
    textAtPath c2Result [0, 0] = some "Some ".toList ∧
    kindAtPath c2Result [0, 1] = some .inlineBox ∧
    childCountAtPath c2Result [0, 1] = some 1 ∧
    kindAtPath c2Result [0, 1, 0] = some .textBox ∧
    textAtPath c2Result [0, 1, 0] = some "emphasised".toList ∧
    kindAtPath c2Result [0, 2] = some .textBox ∧
    textAtPath c2Result [0, 2] = some " text.".toList :=
  ⟨rfl, rfl, rfl, rfl, rfl, rfl, rfl, rfl, rfl, rfl, rfl, rfl, rfl⟩

/-! ### Claim C9: add_child never detaches from a former parent -/

theorem setParentOf_childrenRef (h : Heap) (j : Nat) (pp : Option Nat) (i : Nat) :
    ((setParentOf h j pp).box? i).map BoxData.childrenRef =
      (h.box? i).map BoxData.childrenRef := by
  unfold setParentOf
  cases hj : h.box? j with
  | none => rfl
  | some b =>
    by_cases hij : i = j
    · subst hij
      obtain ⟨hlt, heq⟩ := List.getElem?_eq_some_iff.mp hj
      simp [Heap.box?, List.getElem?_set, hlt, heq]
    · simp [Heap.box?, List.getElem?_set, Ne.symm hij]

theorem setParentOf_lists (h : Heap) (j : Nat) (pp : Option Nat) :
    (setParentOf h j pp).lists = h.lists := by
  unfold setParentOf
  cases h.box? j <;> rfl

theorem setParentOf_parent_self (h : Heap) (c : Nat) (pp : Option Nat)
    (hc : (h.box? c).isSome) : parentOf (setParentOf h c pp) c = pp := by
  unfold setParentOf parentOf
  cases hj : h.box? c with
  | none => simp [hj] at hc
  | some b =>
    have hlt : c < h.boxes.length := (List.getElem?_eq_some_iff.mp hj).1
    simp [Heap.box?, List.getElem?_set, hlt]

/-- C9: add_child sets the parent of the child to the receiver and
inserts the child into the receiver's children list object, but it
never removes the child from any other children list object: any list
object other than the receiver's is left unchanged, so re-parenting by
add_child alone leaves the child present in two children lists. -/
theorem C9_add_child_no_detach
    (h h' : Heap) (p c q rp rq : Nat) (idx : Option Nat)
    (hrun : add_child h p c idx = some h')
    (hp : (h.box? p).map BoxData.childrenRef = some (some rp))
    (hq : (h.box? q).map BoxData.childrenRef = some (some rq))
    (hrp : rp < h.lists.length)
    (hne : rq ≠ rp) :
    parentOf h' c = some p ∧
    c ∈ h'.list rp ∧
    h'.list rq = h.list rq ∧
    (c ∈ h.list rq → c ∈ h'.list rq ∧ c ∈ h'.list rp) := by
  unfold add_child at hrun
  cases hcb : h.box? c with
  | none => simp [hcb] at hrun
  | some cb =>
    rw [hcb] at hrun
    set h1 := setParentOf h c (some p) with hh1
    have h1p : (h1.box? p).map BoxData.childrenRef = some (some rp) := by
      rw [hh1, setParentOf_childrenRef]; exact hp
    cases hpb : h1.box? p with
    | none => rw [hpb] at h1p; simp at h1p
    | some pb =>
      have href : pb.childrenRef = some rp := by rw [hpb] at h1p; simpa using h1p
      simp only [Option.bind_eq_bind, Option.some_bind, hpb, href] at hrun
      have hlists1 : h1.lists = h.lists := setParentOf_lists h c (some p)
      have hlist1 : ∀ r, h1.list r = h.list r := by
        intro r; unfold Heap.list; rw [hlists1]
      have hparent1 : parentOf h1 c = some p :=
        setParentOf_parent_self h c (some p) (by rw [hcb]; rfl)
      have hmain : ∀ newl, c ∈ newl →
          h' = h1.setList rp newl →
          parentOf h' c = some p ∧ c ∈ h'.list rp ∧ h'.list rq = h.list rq ∧
          (c ∈ h.list rq → c ∈ h'.list rq ∧ c ∈ h'.list rp) := by
        intro newl hmem heq
        subst heq
        refine ⟨?_, ?_, ?_, ?_⟩
        · unfold parentOf Heap.box? at hparent1 ⊢
          simpa [Heap.setList] using hparent1
        · unfold Heap.list Heap.setList
          have hrp1 : rp < h1.lists.length := by rw [hlists1]; exact hrp
          simp [List.getElem?_set, hrp1, hmem]
        · have hrpq : rp ≠ rq := fun hh => hne hh.symm
          unfold Heap.list Heap.setList
          rw [List.getElem?_set_ne hrpq, ← hlists1]
        · intro hcq
          have hrpq : rp ≠ rq := fun hh => hne hh.symm
          constructor
          · unfold Heap.list Heap.setList
            rw [List.getElem?_set_ne hrpq, hlists1]
            exact hcq
          · unfold Heap.list Heap.setList
            have hrp1 : rp < h1.lists.length := by rw [hlists1]; exact hrp
            simp [List.getElem?_set, hrp1, hmem]
      cases idx with
      | none =>
        simp only [Option.some.injEq] at hrun
        exact hmain (h1.list rp ++ [c]) (by simp) hrun.symm
      | some i =>
        simp only [Option.some.injEq] at hrun
        exact hmain (pyInsert (h1.list rp) i c) (by simp [pyInsert]) hrun.symm

/-- Witness for C9 on the concrete heap: box 2 starts as a child of box
0; after add_child re-parents it under box 1 it is present in the
children lists of both box 0 and box 1. -/
theorem C9_witness :
    add_child c9Heap 1 2 none = some c9HeapAfter ∧
    2 ∈ c9Heap.list 0 ∧
    (parentOf c9HeapAfter 2 = some 1 ∧ 2 ∈ c9HeapAfter.list 1 ∧
     c9HeapAfter.list 0 = c9Heap.list 0 ∧
     (2 ∈ c9Heap.list 0 → 2 ∈ c9HeapAfter.list 0 ∧ 2 ∈ c9HeapAfter.list 1)) :=
  ⟨rfl, by decide,
   C9_add_child_no_detach c9Heap c9HeapAfter 1 2 0 1 0 none rfl rfl rfl
     (by decide) (by decide)⟩

/-! ### Claims C6 and C10: the child loop of the builder -/

theorem BoxList.toList_append : ∀ a b : BoxList,
    (a.append b).toList = a.toList ++ b.toList := by
  intro a
  induction a using boxListInduct (P := fun _ => True) with
  | hmkNone k e txt => trivial
  | hmkSome k e l txt _ => trivial
  | hnil => intro b; rfl
  | hcons bb rest _ ih =>
    intro b
    simp only [BoxList.append, BoxList.toList, ih, List.cons_append]

theorem forall₂_exists_of_mem {α β : Type} {R : α → β → Prop} {as : List α}
    {bs : List β} (h : List.Forall₂ R as bs) {a : α} (ha : a ∈ as) :
    ∃ b ∈ bs, R a b := by
  induction h with
  | nil => cases ha
  | cons hr _ ih =>
    rcases List.mem_cons.mp ha with h1 | h2
    · subst h1; exact ⟨_, List.mem_cons_self _ _, hr⟩
    · obtain ⟨b, hb, hrb⟩ := ih h2
      exact ⟨b, List.mem_cons_of_mem _ hb, hrb⟩

/-- The contribution of each child element in the child loop of
dom_to_box: the output splits into one piece per child; a piece is the
tail text box alone when the child display is none, and the child's box
followed by the tail text box otherwise. -/
theorem domChildren_contrib (pe : Element) :
    ∀ (cs : ElemList) (out : BoxList), domChildren pe cs = .ok out →
    ∃ pieces : List (List Box), List.Forall₂ (childContrib pe) cs.toList pieces ∧
      out.toList = pieces.flatten := by
  intro cs
  induction cs using elemListInduct with
  | hnil =>
    intro out h
    unfold domChildren at h
    simp only [pure, Except.pure] at h
    cases h
    exact ⟨[], List.Forall₂.nil, rfl⟩
  | hcons c rest ih =>
    intro out h
    unfold domChildren at h
    by_cases hd : c.display = "none"
    · simp only [hd, ne_eq, not_true_eq_false, if_neg, ite_false, pure,
        Except.pure, bind, Except.bind] at h
      cases hrest : domChildren pe rest with
      | error err => rw [hrest] at h; simp [Except.bind] at h
      | ok r =>
        rw [hrest] at h
        simp only [Except.bind] at h
        cases h
        obtain ⟨pieces, hf, hflat⟩ := ih r hrest
        refine ⟨tailContrib pe c :: pieces, ?_, ?_⟩
        · exact List.Forall₂.cons (Or.inl ⟨hd, rfl⟩) hf
        · simp only [ElemList.toList, BoxList.toList_append, BoxList.append,
            List.flatten, hflat]
          unfold tailContrib
          split <;> simp [BoxList.toList]
    · simp only [hd, ne_eq, not_false_iff, if_pos, ite_true, bind,
        Except.bind] at h
      cases hcb : dom_to_box c with
      | error err => rw [hcb] at h; simp at h
      | ok cb =>
        rw [hcb] at h
        simp only [pure, Except.pure] at h
        cases hrest : domChildren pe rest with
        | error err => rw [hrest] at h; simp at h
        | ok r =>
          rw [hrest] at h
          cases h
          obtain ⟨pieces, hf, hflat⟩ := ih r hrest
          refine ⟨(cb :: tailContrib pe c) :: pieces, ?_, ?_⟩
          · exact List.Forall₂.cons (Or.inr ⟨hd, cb, hcb, rfl⟩) hf
          · simp only [ElemList.toList, BoxList.toList_append, BoxList.append,
              BoxList.toList, List.flatten, hflat]
            unfold tailContrib
            split <;> simp [BoxList.toList]

/-- The children of a successfully built box: the optional leading text
box for the element text, then the flattened per-child contributions;
the box references its own element. -/
theorem dom_to_box_children (e : Element) (b : Box) (h : dom_to_box e = .ok b) :
    ∃ pieces : List (List Box),
      List.Forall₂ (childContrib e) e.children.toList pieces ∧
      (b.children.getD .nil).toList =
        (if truthy e.text then [mkTextBox e (e.text.getD [])] else []) ++
          pieces.flatten ∧
      b.elem = e := by
  obtain ⟨d, ws, txt, tl, cs⟩ := e
  unfold dom_to_box at h
  by_cases hd : d = "none"
  · simp [hd] at h
  · simp only [hd, if_false, ite_false] at h
    split at h
    · cases h
    · rename_i k hk
      simp only [bind, Except.bind] at h
      cases hkids : domChildren (Element.mk d ws txt tl cs) cs with
      | error err => rw [hkids] at h; simp at h
      | ok kids =>
        rw [hkids] at h
        simp only [pure, Except.pure] at h
        cases h
        obtain ⟨pieces, hf, hflat⟩ :=
          domChildren_contrib (Element.mk d ws txt tl cs) cs kids hkids
        refine ⟨pieces, hf, ?_, rfl⟩
        simp only [Box.children, Kids.getD, BoxList.toList_append, hflat,
          Element.text]
        split <;> simp [BoxList.toList]

/-- C6 amended: for every successfully built element, the children list
is the leading text box followed by one piece per child element in
document order, where a child with display none contributes only its
tail text box (and nothing when it has no truthy tail), and any other
child contributes its recursively built box followed by its tail text
box. -/
theorem C6_amended_child_contributions (e : Element) (b : Box)
    (h : dom_to_box e = .ok b) :
    ∃ pieces : List (List Box),
      List.Forall₂ (childContrib e) e.children.toList pieces ∧
      (b.children.getD .nil).toList =
        (if truthy e.text then [mkTextBox e (e.text.getD [])] else []) ++
          pieces.flatten := by
  obtain ⟨pieces, hf, hflat, _⟩ := dom_to_box_children e b h
  exact ⟨pieces, hf, hflat⟩

/-- C6 as stated is refuted: a display-none child with tail text does
contribute a text box, so the parent of one such child has a non-empty
children list holding exactly the tail text box. -/
theorem C6_counterexample :
    dom_to_box noneParentElement =
      .ok (.mk .blockBox noneParentElement
            (.some (.cons (mkTextBox noneParentElement "x".toList) .nil)) none) ∧
    BoxList.cons (mkTextBox noneParentElement "x".toList) .nil ≠ .nil :=
  ⟨rfl, by intro hh; cases hh⟩

/-- Witness for the amended C6 at the concrete display-none-with-tail
parent. -/
theorem C6_witness :
    dom_to_box noneParentElement =
      .ok (.mk .blockBox noneParentElement
            (.some (.cons (mkTextBox noneParentElement "x".toList) .nil)) none) ∧
    (∃ pieces : List (List Box),
      List.Forall₂ (childContrib noneParentElement)
        noneParentElement.children.toList pieces ∧
      ((Box.mk .blockBox noneParentElement
          (.some (.cons (mkTextBox noneParentElement "x".toList) .nil))
          none).children.getD .nil).toList =
        (if truthy noneParentElement.text
         then [mkTextBox noneParentElement (noneParentElement.text.getD [])]
         else []) ++ pieces.flatten) :=
  ⟨rfl, C6_amended_child_contributions noneParentElement _ rfl⟩

/-- C10: a text box created by dom_to_box for the tail of a child
element references the containing parent element, not the child, so the
white-space mode read during normalization is the parent's. -/
theorem C10_tail_references_parent_element (e c : Element) (b : Box)
    (h : dom_to_box e = .ok b) (hc : c ∈ e.children.toList)
    (ht : truthy c.tail) :
    mkTextBox e (c.tail.getD []) ∈ (b.children.getD .nil).toList ∧
    (mkTextBox e (c.tail.getD [])).elem = e ∧
    (mkTextBox e (c.tail.getD [])).elem.white_space = e.white_space := by
  obtain ⟨pieces, hf, hflat, _⟩ := dom_to_box_children e b h
  obtain ⟨piece, hpieces, hcontrib⟩ := forall₂_exists_of_mem hf hc
  have htail : mkTextBox e (c.tail.getD []) ∈ piece := by
    rcases hcontrib with ⟨_, hpp⟩ | ⟨_, cb, _, hpp⟩ <;>
      · subst hpp
        unfold tailContrib
        simp [ht]
  have hmem : mkTextBox e (c.tail.getD []) ∈ pieces.flatten :=
    List.mem_flatten.mpr ⟨piece, hpieces, htail⟩
  refine ⟨?_, rfl, rfl⟩
  rw [hflat]
  exact List.mem_append_right _ hmem

/-- Witness for C10: in the scenario paragraph the tail text box of the
em child references the p element and therefore its white-space mode. -/
theorem C10_witness :
    dom_to_box pElement = .ok pBuiltBox ∧
    emElement ∈ pElement.children.toList ∧
    truthy emElement.tail = true ∧
    (mkTextBox pElement (emElement.tail.getD []) ∈
        (pBuiltBox.children.getD .nil).toList ∧
     (mkTextBox pElement (emElement.tail.getD [])).elem = pElement ∧
     (mkTextBox pElement (emElement.tail.getD [])).elem.white_space =
       pElement.white_space) :=
  ⟨rfl, List.mem_cons_self _ _, rfl,
   C10_tail_references_parent_element pElement emElement pBuiltBox rfl
     (List.mem_cons_self _ _) rfl⟩

/-! ### Claim C5: the pre-wrap break-opportunity markers -/

theorem length_dropWhile_le (p : Char → Bool) (l : List Char) :
    (l.dropWhile p).length ≤ l.length :=
  (List.dropWhile_sublist p).length_le

theorem markRunsF_nil : ∀ f, markRunsF f [] = [] := by
  intro f; cases f <;> rfl

theorem markRunsF_congr : ∀ f1 f2 s, s.length ≤ f1 → s.length ≤ f2 →
    markRunsF f1 s = markRunsF f2 s := by
  intro f1
  induction f1 with
  | zero =>
    intro f2 s h1 _
    have hs : s = [] := List.length_eq_zero.mp (Nat.le_zero.mp h1)
    subst hs
    rw [markRunsF_nil, markRunsF_nil]
  | succ n ih =>
    intro f2 s h1 h2
    cases s with
    | nil => rw [markRunsF_nil, markRunsF_nil]
    | cons c cs =>
      cases f2 with
      | zero => simp at h2
      | succ m =>
        have h1' : cs.length ≤ n := by simpa using h1
        have h2' : cs.length ≤ m := by simpa using h2
        simp only [markRunsF]
        by_cases hc : c = nbsp
        · simp only [hc, if_true]
          have hd1 : (cs.dropWhile (fun x => decide (x = nbsp))).length ≤ n :=
            le_trans (length_dropWhile_le _ _) h1'
          have hd2 : (cs.dropWhile (fun x => decide (x = nbsp))).length ≤ m :=
            le_trans (length_dropWhile_le _ _) h2'
          rw [ih m _ hd1 hd2]
        · simp only [hc, if_false]
          rw [ih m cs h1' h2']

theorem markRunsF_eq_markRuns (f : Nat) (s : List Char) (h : s.length ≤ f) :
    markRunsF f s = markRuns s :=
  markRunsF_congr f s.length s h le_rfl

/-- One-step unfolding of markRuns on a non-empty list. -/
theorem markRuns_cons (c : Char) (cs : List Char) :
    markRuns (c :: cs) =
      if c = nbsp then
        nbsp :: (cs.takeWhile (fun x => x = nbsp) ++
                 zwsp :: markRuns (cs.dropWhile (fun x => x = nbsp)))
      else c :: markRuns cs := by
  have h1 : markRuns (c :: cs) = markRunsF (cs.length + 1) (c :: cs) := rfl
  rw [h1]
  simp only [markRunsF]
  by_cases hc : c = nbsp
  · simp only [hc, if_true]
    rw [markRunsF_eq_markRuns cs.length _ (length_dropWhile_le _ _)]
  · simp only [hc, if_false]
    rw [markRunsF_eq_markRuns cs.length cs le_rfl]

/-- The pre-wrap substitution scan computes exactly the insertion of one
zero-width space after every maximal run of non-breaking spaces,
including a run that ends the text. -/
theorem preWrapSub_eq_markRuns : ∀ s, preWrapSub s = markRuns s := by
  have main : ∀ n s, s.length ≤ n → preWrapSub s = markRuns s := by
    intro n
    induction n with
    | zero =>
      intro s hs
      have : s = [] := List.length_eq_zero.mp (Nat.le_zero.mp hs)
      subst this; rfl
    | succ n ih =>
      intro s hs
      match s with
      | [] => rfl
      | [c] =>
        by_cases hc : c = nbsp <;>
          simp [preWrapSub, markRuns, markRunsF, markRunsF_nil, hc]
      | c :: d :: rest =>
        have hrest2 : (d :: rest).length ≤ n := by
          simp only [List.length_cons] at hs ⊢; omega
        have hrest1 : rest.length ≤ n := by
          simp only [List.length_cons] at hs; omega
        by_cases hc : c = nbsp
        · by_cases hd : d = nbsp
          · rw [show preWrapSub (c :: d :: rest) = nbsp :: preWrapSub (d :: rest) by
              simp [preWrapSub, hc, hd]]
            rw [ih (d :: rest) hrest2]
            rw [markRuns_cons c (d :: rest), markRuns_cons d rest]
            simp [hc, hd, List.takeWhile, List.dropWhile]
          · rw [show preWrapSub (c :: d :: rest) =
                  nbsp :: zwsp :: d :: preWrapSub rest by
              simp [preWrapSub, hc, hd]]
            rw [ih rest hrest1]
            rw [markRuns_cons c (d :: rest)]
            simp only [hc, if_true, List.takeWhile, List.dropWhile, hd,
              decide_False, decide_True, if_false, List.nil_append]
            rw [markRuns_cons d rest, if_neg hd]
        · rw [show preWrapSub (c :: d :: rest) = c :: preWrapSub (d :: rest) by
            simp [preWrapSub, hc]]
          rw [ih (d :: rest) hrest2]
          rw [markRuns_cons c (d :: rest)]
          simp [hc]
  exact fun s => main s.length s le_rfl

/-- C5 as stated is refuted: on the text of one letter and one space,
the pre-wrap branch produces letter, non-breaking space, zero-width
space, inserting the marker after the final run of non-breaking spaces,
while the claim forbids a marker after a run that abuts the end of the
text. -/
theorem C5_counterexample :
    (processText "pre-wrap" "a ".toList false).1 = ['a', nbsp, zwsp] ∧
    markRunsExceptEnd (replaceChar (collapseNl "a ".toList) ' ' nbsp) =
      ['a', nbsp] ∧
    (['a', nbsp, zwsp] : List Char) ≠ ['a', nbsp] :=
  ⟨rfl, rfl, by decide⟩

/-- C5 amended: in the pre-wrap branch, after newline collapsing and the
replacement of every space by a non-breaking space, a zero-width-space
marker is inserted immediately after every maximal run of non-breaking
spaces, including a run that abuts the end of the text; the outgoing
collapsible-space flag is false. -/
theorem C5_amended_marker_insertion (t : List Char) (pending : Bool) :
    processText "pre-wrap" t pending =
      (markRuns (replaceChar (collapseNl t) ' ' nbsp), false) := by
  simp [processText, preWrapSub_eq_markRuns]

/-! ### Claim C4: the rebuilt clone chain of block_in_inline -/

theorem allocBox_fst (h : Heap) (k : BoxKind) (e : Element) :
    (h.allocBox k e).1 = h.boxes.length := rfl

theorem allocBox_box_self (h : Heap) (k : BoxKind) (e : Element) :
    (h.allocBox k e).2.box? h.boxes.length =
      some ⟨k, e, none, some h.lists.length, none⟩ := by
  simp [Heap.allocBox, Heap.newList, Heap.box?]

theorem allocBox_box_lt (h : Heap) (k : BoxKind) (e : Element) (j : Nat)
    (hj : j < h.boxes.length) : (h.allocBox k e).2.box? j = h.box? j := by
  simp [Heap.allocBox, Heap.newList, Heap.box?, List.getElem?_append, hj]

theorem allocBox_boxes_length (h : Heap) (k : BoxKind) (e : Element) :
    (h.allocBox k e).2.boxes.length = h.boxes.length + 1 := by
  simp [Heap.allocBox, Heap.newList]

theorem allocBox_lists_length (h : Heap) (k : BoxKind) (e : Element) :
    (h.allocBox k e).2.lists.length = h.lists.length + 1 := by
  simp [Heap.allocBox, Heap.newList]

theorem allocBox_list_lt (h : Heap) (k : BoxKind) (e : Element) (r : Nat)
    (hr : r < h.lists.length) : (h.allocBox k e).2.list r = h.list r := by
  simp [Heap.allocBox, Heap.newList, Heap.list, List.getElem?_append, hr]

theorem allocBox_list_new (h : Heap) (k : BoxKind) (e : Element) :
    (h.allocBox k e).2.list h.lists.length = [] := by
  simp [Heap.allocBox, Heap.newList, Heap.list]

theorem setList_box (h : Heap) (r : Nat) (l : List Nat) (j : Nat) :
    (h.setList r l).box? j = h.box? j := rfl

theorem setList_boxes_length (h : Heap) (r : Nat) (l : List Nat) :
    (h.setList r l).boxes.length = h.boxes.length := rfl

theorem setList_lists_length (h : Heap) (r : Nat) (l : List Nat) :
    (h.setList r l).lists.length = h.lists.length := by
  simp [Heap.setList]

theorem setList_list_self (h : Heap) (r : Nat) (l : List Nat)
    (hr : r < h.lists.length) : (h.setList r l).list r = l := by
  simp [Heap.setList, Heap.list, List.getElem?_set_self, hr]

theorem setList_list_ne (h : Heap) (r : Nat) (l : List Nat) (r' : Nat)
    (hne : r' ≠ r) : (h.setList r l).list r' = h.list r' := by
  simp [Heap.setList, Heap.list, List.getElem?_set_ne (Ne.symm hne)]

theorem setParentOf_box_ne (h : Heap) (i : Nat) (p : Option Nat) (j : Nat)
    (hne : j ≠ i) : (setParentOf h i p).box? j = h.box? j := by
  unfold setParentOf
  cases h.box? i with
  | none => rfl
  | some b => simp [Heap.box?, List.getElem?_set_ne (Ne.symm hne)]

theorem setParentOf_boxes_length (h : Heap) (i : Nat) (p : Option Nat) :
    (setParentOf h i p).boxes.length = h.boxes.length := by
  unfold setParentOf
  cases h.box? i with
  | none => rfl
  | some b => simp

theorem setParentOf_box_self (h : Heap) (i : Nat) (p : Option Nat) (b : BoxData)
    (hb : h.box? i = some b) :
    (setParentOf h i p).box? i = some ⟨b.kind, b.elem, p, b.childrenRef, b.text⟩ := by
  unfold setParentOf
  rw [hb]
  obtain ⟨hlt, _⟩ := List.getElem?_eq_some_iff.mp hb
  simp [Heap.box?, List.getElem?_set_self, hlt]

theorem setParentOf_lists_length (h : Heap) (i : Nat) (p : Option Nat) :
    (setParentOf h i p).lists.length = h.lists.length := by
  rw [setParentOf_lists]

theorem setParentOf_list (h : Heap) (i : Nat) (p : Option Nat) (r : Nat) :
    (setParentOf h i p).list r = h.list r := by
  unfold Heap.list
  rw [setParentOf_lists]

/-- The append form of add_child: with a valid receiver and child, the
result sets the parent of the child and appends it to the receiver's
children list object. -/
theorem add_child_append_eq (h : Heap) (self child r : Nat) (sb : BoxData)
    (hc : (h.box? child).isSome)
    (hs : h.box? self = some sb) (hr : sb.childrenRef = some r) :
    add_child h self child none =
      some ((setParentOf h child (some self)).setList r
        ((setParentOf h child (some self)).list r ++ [child])) := by
  unfold add_child
  obtain ⟨cb, hcb⟩ := Option.isSome_iff_exists.mp hc
  rw [hcb]
  have h1 := setParentOf_childrenRef h child (some self) self
  rw [hs] at h1
  cases hpb : (setParentOf h child (some self)).box? self with
  | none => rw [hpb] at h1; simp at h1
  | some sb' =>
    rw [hpb] at h1
    simp only [Option.map_some', Option.some.injEq] at h1
    simp only [Option.bind_eq_bind, Option.some_bind, hpb, h1, hr]

theorem forall₂_imp_mem {α β : Type} {R S : α → β → Prop} {l1 : List α}
    {l2 : List β} (h : List.Forall₂ R l1 l2)
    (himp : ∀ a b, a ∈ l1 → R a b → S a b) : List.Forall₂ S l1 l2 := by
  induction h with
  | nil => exact List.Forall₂.nil
  | cons hr _ ih =>
    exact List.Forall₂.cons (himp _ _ (List.mem_cons_self _ _) hr)
      (ih (fun a b ha hab => himp a b (List.mem_cons_of_mem _ ha) hab))

/-- C4 amended: the clone-rebuilding loop of block_in_inline creates
exactly one fresh clone per collected ancestor, which includes the
enclosing LineBox besides the InlineBox ancestors: same class and same
originating element per level, nested in the order of the collected
list (outermost first after the reversal), each clone the only child of
the previous one, the first appended under the after anonymous block,
the innermost clone with empty children; every pre-existing box record
and every other list object is untouched, and the loop returns the
innermost clone. -/
theorem C4_amended_clone_chain : ∀ (ps : List Nat) (h : Heap) (root rr last : Nat)
    (h' : Heap),
    cloneLoop h root ps = some (last, h') →
    (h.box? root).map BoxData.childrenRef = some (some rr) →
    rr < h.lists.length →
    (∀ j ∈ ps, j < h.boxes.length) →
    ∃ ids : List Nat,
      ids.length = ps.length ∧
      (∀ i ∈ ids, h.boxes.length ≤ i) ∧
      (∀ j, j < h.boxes.length → h'.box? j = h.box? j) ∧
      (∀ r, r < h.lists.length → r ≠ rr → h'.list r = h.list r) ∧
      h'.list rr = h.list rr ++ ids.take 1 ∧
      List.Forall₂ (fun p i => ∃ pd cd, h.box? p = some pd ∧ h'.box? i = some cd ∧
        cd.kind = pd.kind ∧ cd.elem = pd.elem) ps ids ∧
      (∀ i ∈ ids.take 1, parentOf h' i = some root) ∧
      List.Chain' (fun i j => parentOf h' j = some i ∧
        (∃ cd cr, h'.box? i = some cd ∧ cd.childrenRef = some cr ∧
          h'.list cr = [j])) ids ∧
      (∀ i, ids.getLast? = some i → ∃ cd cr, h'.box? i = some cd ∧
        cd.childrenRef = some cr ∧ h'.list cr = []) ∧
      last = (ids.getLast?).getD root := by
  intro ps
  induction ps with
  | nil =>
    intro h root rr last h' hrun hroot hrr _
    unfold cloneLoop at hrun
    simp only [Option.some.injEq, Prod.mk.injEq] at hrun
    obtain ⟨hlast, hheap⟩ := hrun
    subst hlast; subst hheap
    exact ⟨[], rfl, by simp, fun _ _ => rfl, fun _ _ _ => rfl, by simp,
      List.Forall₂.nil, by simp, List.chain'_nil, by simp, rfl⟩
  | cons p rest ih =>
    intro h root rr last h' hrun hroot hrr hvalid
    unfold cloneLoop at hrun
    cases hpb : h.box? p with
    | none => rw [hpb] at hrun; simp at hrun
    | some pd =>
      rw [hpb] at hrun
      simp only [Option.bind_eq_bind, Option.some_bind, allocBox_fst] at hrun
      obtain ⟨rb, hrb, hrbr⟩ : ∃ rb, h.box? root = some rb ∧
          rb.childrenRef = some rr := by
        cases hx : h.box? root with
        | none => rw [hx] at hroot; simp at hroot
        | some rb =>
          rw [hx] at hroot
          simp only [Option.map_some', Option.some.injEq] at hroot
          exact ⟨rb, rfl, hroot⟩
      have hrootlt : root < h.boxes.length := (List.getElem?_eq_some_iff.mp hrb).1
      have hA := (h.allocBox pd.kind pd.elem).2
      have hArootEq : (h.allocBox pd.kind pd.elem).2.box? root = some rb :=
        (allocBox_box_lt h pd.kind pd.elem root hrootlt).trans hrb
      have hAnew : (h.allocBox pd.kind pd.elem).2.box? h.boxes.length =
          some ⟨pd.kind, pd.elem, none, some h.lists.length, none⟩ :=
        allocBox_box_self h pd.kind pd.elem
      rw [add_child_append_eq _ root h.boxes.length rr rb
        (by rw [hAnew]; rfl) hArootEq hrbr] at hrun
      simp only [Option.some_bind] at hrun
      set hS := setParentOf (h.allocBox pd.kind pd.elem).2 h.boxes.length
        (some root) with hhS
      set h2 := hS.setList rr (hS.list rr ++ [h.boxes.length]) with hh2
      have hF1 : h2.box? h.boxes.length =
          some ⟨pd.kind, pd.elem, some root, some h.lists.length, none⟩ := by
        rw [hh2, setList_box, hhS,
          setParentOf_box_self _ _ _ _ hAnew]
      have hF2 : ∀ j, j < h.boxes.length → h2.box? j = h.box? j := by
        intro j hj
        rw [hh2, setList_box, hhS, setParentOf_box_ne _ _ _ _ (Nat.ne_of_lt hj),
          allocBox_box_lt _ _ _ _ hj]
      have hF3 : h2.boxes.length = h.boxes.length + 1 := by
        rw [hh2, setList_boxes_length, hhS, setParentOf_boxes_length,
          allocBox_boxes_length]
      have hF4 : h2.lists.length = h.lists.length + 1 := by
        rw [hh2, setList_lists_length, hhS, setParentOf_lists_length,
          allocBox_lists_length]
      have hSlen : rr < hS.lists.length := by
        rw [hhS, setParentOf_lists_length, allocBox_lists_length]
        exact Nat.lt_succ_of_lt hrr
      have hF5 : h2.list rr = h.list rr ++ [h.boxes.length] := by
        rw [hh2, setList_list_self _ _ _ hSlen, hhS, setParentOf_list,
          allocBox_list_lt _ _ _ _ hrr]
      have hF6 : h2.list h.lists.length = [] := by
        rw [hh2, setList_list_ne _ _ _ _ (Nat.ne_of_gt hrr), hhS,
          setParentOf_list, allocBox_list_new]
      have hF7 : ∀ r, r < h.lists.length → r ≠ rr → h2.list r = h.list r := by
        intro r hrlt hrne
        rw [hh2, setList_list_ne _ _ _ _ hrne, hhS, setParentOf_list,
          allocBox_list_lt _ _ _ _ hrlt]
      obtain ⟨ids', hlen, hfresh, hboxF, hlistF, hrootL, hf2, htake1, hchain,
          hlastS, hlastEq⟩ :=
        ih h2 h.boxes.length h.lists.length last h' hrun
          (by rw [hF1]; rfl)
          (by rw [hF4]; exact Nat.lt_succ_self _)
          (by intro j hj
              rw [hF3]
              exact Nat.lt_succ_of_lt (hvalid j (List.mem_cons_of_mem _ hj)))
      have hG1 : h'.box? h.boxes.length =
          some ⟨pd.kind, pd.elem, some root, some h.lists.length, none⟩ := by
        rw [hboxF _ (by rw [hF3]; exact Nat.lt_succ_self _), hF1]
      refine ⟨h.boxes.length :: ids', by simp [hlen], ?_, ?_, ?_, ?_, ?_, ?_,
        ?_, ?_, ?_⟩
      · intro i hi
        rcases List.mem_cons.mp hi with h1 | h2m
        · omega
        · have := hfresh i h2m
          rw [hF3] at this
          omega
      · intro j hj
        rw [hboxF j (by rw [hF3]; exact Nat.lt_succ_of_lt hj), hF2 j hj]
      · intro r hrlt hrne
        rw [hlistF r (by rw [hF4]; exact Nat.lt_succ_of_lt hrlt)
          (Nat.ne_of_lt hrlt), hF7 r hrlt hrne]
      · rw [hlistF rr (by rw [hF4]; exact Nat.lt_succ_of_lt hrr)
          (Nat.ne_of_lt hrr), hF5]
        simp
      · refine List.Forall₂.cons ⟨pd, _, hpb, hG1, rfl, rfl⟩ ?_
        refine forall₂_imp_mem hf2 ?_
        intro a b ha hab
        obtain ⟨pda, cda, hpda, hcda, hk, he⟩ := hab
        refine ⟨pda, cda, ?_, hcda, hk, he⟩
        rw [← hF2 a (hvalid a (List.mem_cons_of_mem _ ha))]
        exact hpda
      · intro i hi
        simp only [List.take_succ_cons, List.take_zero, List.mem_singleton] at hi
        subst hi
        unfold parentOf
        rw [hG1]
      · cases ids' with
        | nil => simp [List.chain'_singleton]
        | cons i0 tl =>
          refine List.chain'_cons.mpr ⟨⟨?_, ?_⟩, hchain⟩
          · exact htake1 i0 (by simp)
          · exact ⟨_, h.lists.length, hG1, rfl, by
              rw [hrootL, hF6]; simp⟩
      · intro i hi
        cases ids' with
        | nil =>
          simp only [List.getLast?_singleton, Option.some.injEq] at hi
          subst hi
          exact ⟨_, h.lists.length, hG1, rfl, by rw [hrootL, hF6]; simp⟩
        | cons i0 tl =>
          rw [List.getLast?_cons_cons] at hi
          exact hlastS i hi
      · cases ids' with
        | nil => simpa using hlastEq
        | cons i0 tl =>
          rw [List.getLast?_cons_cons]
          rw [hlastEq]
          cases hlt : (i0 :: tl).getLast? with
          | none => simp at hlt
          | some x => simp

/-- C4 as stated is refuted: on a concrete split, the structure rebuilt
inside the after anonymous block carries a clone of the enclosing line
box as an additional outer level above the clone of the single InlineBox
ancestor, so it is not made of InlineBox-ancestor clones alone. -/
theorem C4_counterexample :
    pipeline 100 divElement = some c4Result ∧
    kindAtPath c4Result [2] = some .anonymousBlockBox ∧
    childCountAtPath c4Result [2] = some 1 ∧
    kindAtPath c4Result [2, 0] = some .lineBox ∧
    kindAtPath c4Result [2, 0, 0] = some .inlineBox ∧
    BoxKind.lineBox ≠ BoxKind.inlineBox :=
  ⟨rfl, rfl, rfl, rfl, rfl, by decide⟩

/-- Witness for the amended C4 on the concrete clone heap: the loop over
the reversed collected list, line box 2 then inline box 1, builds the
line-box clone 3 under the anonymous block 0 and the inline-box clone 4
under it. -/
theorem C4_witness :
    cloneLoop c4CloneHeap 0 [2, 1] = some (4, c4CloneHeapAfter) ∧
    Option.map BoxData.childrenRef (c4CloneHeap.box? 0) = some (some 0) ∧
    0 < c4CloneHeap.lists.length ∧
    (∀ j ∈ [2, 1], j < c4CloneHeap.boxes.length) ∧
    (∃ ids : List Nat,
      ids.length = ([2, 1] : List Nat).length ∧
      (∀ i ∈ ids, c4CloneHeap.boxes.length ≤ i) ∧
      (∀ j, j < c4CloneHeap.boxes.length →
        c4CloneHeapAfter.box? j = c4CloneHeap.box? j) ∧
      (∀ r, r < c4CloneHeap.lists.length → r ≠ 0 →
        c4CloneHeapAfter.list r = c4CloneHeap.list r) ∧
      c4CloneHeapAfter.list 0 = c4CloneHeap.list 0 ++ ids.take 1 ∧
      List.Forall₂ (fun p i => ∃ pd cd, c4CloneHeap.box? p = some pd ∧
        c4CloneHeapAfter.box? i = some cd ∧
        cd.kind = pd.kind ∧ cd.elem = pd.elem) [2, 1] ids ∧
      (∀ i ∈ ids.take 1, parentOf c4CloneHeapAfter i = some 0) ∧
      List.Chain' (fun i j => parentOf c4CloneHeapAfter j = some i ∧
        (∃ cd cr, c4CloneHeapAfter.box? i = some cd ∧ cd.childrenRef = some cr ∧
          c4CloneHeapAfter.list cr = [j])) ids ∧
      (∀ i, ids.getLast? = some i → ∃ cd cr,
        c4CloneHeapAfter.box? i = some cd ∧
        cd.childrenRef = some cr ∧ c4CloneHeapAfter.list cr = []) ∧
      (4 : Nat) = (ids.getLast?).getD 0) :=
  ⟨rfl, rfl, by decide, by decide,
   C4_amended_clone_chain [2, 1] c4CloneHeap 0 0 4 c4CloneHeapAfter rfl rfl
     (by decide) (by decide)⟩

/-! ### Claim C3: idempotence of the white-space pass -/

theorem matchNl_length : ∀ {s r : List Char}, matchNl s = some r →
    r.length < s.length := by
  intro s
  induction s with
  | nil => intro r h; simp [matchNl] at h
  | cons c rest ih =>
    intro r h
    simp only [matchNl] at h
    by_cases hc : c = '\n'
    · simp only [hc, if_true, Option.some.injEq] at h
      subst h; simp
    · by_cases hb : isBlank c
      · simp only [hc, hb, if_false, if_true] at h
        exact Nat.lt_trans (ih h) (by simp)
      · simp [hc, hb] at h

theorem dropBlanks_length (s : List Char) : (dropBlanks s).length ≤ s.length := by
  induction s with
  | nil => simp [dropBlanks]
  | cons c rest ih =>
    simp only [dropBlanks]
    by_cases hb : isBlank c
    · simp only [hb, if_true]
      exact Nat.le_trans ih (by simp)
    · simp [hb]

theorem dropSpaces_length (s : List Char) : (dropSpaces s).length ≤ s.length := by
  induction s with
  | nil => simp [dropSpaces]
  | cons c rest ih =>
    simp only [dropSpaces]
    by_cases hb : c = ' '
    · simp only [hb, if_true]
      exact Nat.le_trans ih (by simp)
    · simp [hb]

theorem collapseNlF_nil : ∀ f, collapseNlF f [] = [] := by
  intro f; cases f <;> rfl

theorem collapseNlF_congr : ∀ f1 f2 s, s.length ≤ f1 → s.length ≤ f2 →
    collapseNlF f1 s = collapseNlF f2 s := by
  intro f1
  induction f1 with
  | zero =>
    intro f2 s h1 _
    have hs : s = [] := List.length_eq_zero.mp (Nat.le_zero.mp h1)
    subst hs
    rw [collapseNlF_nil, collapseNlF_nil]
  | succ n ih =>
    intro f2 s h1 h2
    cases s with
    | nil => rw [collapseNlF_nil, collapseNlF_nil]
    | cons c cs =>
      cases f2 with
      | zero => simp at h2
      | succ m =>
        have h1' : cs.length ≤ n := by simpa using h1
        have h2' : cs.length ≤ m := by simpa using h2
        simp only [collapseNlF]
        cases hm : matchNl (c :: cs) with
        | some rem =>
          dsimp only
          have hrem : rem.length ≤ cs.length := by
            have := matchNl_length hm
            simp only [List.length_cons] at this
            omega
          have hd1 : (dropBlanks rem).length ≤ n :=
            le_trans (dropBlanks_length rem) (le_trans hrem h1')
          have hd2 : (dropBlanks rem).length ≤ m :=
            le_trans (dropBlanks_length rem) (le_trans hrem h2')
          rw [ih m _ hd1 hd2]
        | none =>
          dsimp only
          rw [ih m cs h1' h2']

theorem collapseNlF_eq (f : Nat) (s : List Char) (h : s.length ≤ f) :
    collapseNlF f s = collapseNl s :=
  collapseNlF_congr f s.length s h le_rfl

/-- One-step unfolding of the newline-collapsing scan. -/
theorem collapseNl_cons (c : Char) (rest : List Char) :
    collapseNl (c :: rest) =
      match matchNl (c :: rest) with
      | some rem => '\n' :: collapseNl (dropBlanks rem)
      | none => c :: collapseNl rest := by
  have h1 : collapseNl (c :: rest) = collapseNlF (rest.length + 1) (c :: rest) := rfl
  rw [h1]
  simp only [collapseNlF]
  cases hm : matchNl (c :: rest) with
  | some rem =>
    dsimp only
    have hrem : rem.length ≤ rest.length := by
      have := matchNl_length hm
      simp only [List.length_cons] at this
      omega
    rw [collapseNlF_eq _ _ (le_trans (dropBlanks_length rem) hrem)]
  | none =>
    dsimp only
    rw [collapseNlF_eq _ _ le_rfl]

theorem collapseSpF_nil : ∀ f, collapseSpF f [] = [] := by
  intro f; cases f <;> rfl

theorem collapseSpF_congr : ∀ f1 f2 s, s.length ≤ f1 → s.length ≤ f2 →
    collapseSpF f1 s = collapseSpF f2 s := by
  intro f1
  induction f1 with
  | zero =>
    intro f2 s h1 _
    have hs : s = [] := List.length_eq_zero.mp (Nat.le_zero.mp h1)
    subst hs
    rw [collapseSpF_nil, collapseSpF_nil]
  | succ n ih =>
    intro f2 s h1 h2
    cases s with
    | nil => rw [collapseSpF_nil, collapseSpF_nil]
    | cons c cs =>
      cases f2 with
      | zero => simp at h2
      | succ m =>
        have h1' : cs.length ≤ n := by simpa using h1
        have h2' : cs.length ≤ m := by simpa using h2
        simp only [collapseSpF]
        by_cases hc : c = ' '
        · simp only [hc, if_true]
          have hd1 : (dropSpaces cs).length ≤ n :=
            le_trans (dropSpaces_length cs) h1'
          have hd2 : (dropSpaces cs).length ≤ m :=
            le_trans (dropSpaces_length cs) h2'
          rw [ih m _ hd1 hd2]
        · simp only [hc, if_false]
          rw [ih m cs h1' h2']

theorem collapseSpF_eq (f : Nat) (s : List Char) (h : s.length ≤ f) :
    collapseSpF f s = collapseSp s :=
  collapseSpF_congr f s.length s h le_rfl

/-- One-step unfolding of the space-collapsing scan. -/
theorem collapseSp_cons (c : Char) (rest : List Char) :
    collapseSp (c :: rest) =
      if c = ' ' then ' ' :: collapseSp (dropSpaces rest)
      else c :: collapseSp rest := by
  have h1 : collapseSp (c :: rest) = collapseSpF (rest.length + 1) (c :: rest) := rfl
  rw [h1]
  simp only [collapseSpF]
  by_cases hc : c = ' '
  · simp only [hc, if_true]
    rw [collapseSpF_eq _ _ (dropSpaces_length rest)]
  · simp only [hc, if_false]
    rw [collapseSpF_eq _ _ le_rfl]

theorem goodNlB_cons (a : Char) (l : List Char) :
    goodNlB (a :: l) =
      ((match l with | [] => true | b :: _ => pairOk a b) && goodNlB l) := by
  cases l <;> simp [goodNlB]

theorem goodNlB_tail {a : Char} {l : List Char} (h : goodNlB (a :: l) = true) :
    goodNlB l = true := by
  cases l with
  | nil => rfl
  | cons b rest =>
    simp only [goodNlB, Bool.and_eq_true] at h
    exact h.2

theorem goodNlB_pair {a b : Char} {rest : List Char}
    (h : goodNlB (a :: b :: rest) = true) : pairOk a b = true := by
  simp only [goodNlB, Bool.and_eq_true] at h
  exact h.1

theorem blank_ne_nl {c : Char} (hb : isBlank c = true) : c ≠ '\n' := by
  intro h
  subst h
  exact absurd hb (by decide)

theorem matchNl_cons_blank {c : Char} (rest : List Char)
    (hb : isBlank c = true) : matchNl (c :: rest) = matchNl rest := by
  simp [matchNl, blank_ne_nl hb, hb]

/-- Behind a blank, a clean text never reaches a newline: the
leftmost-match test fails. -/
theorem matchNl_none_of_good : ∀ (rest : List Char) (c : Char),
    isBlank c = true → goodNlB (c :: rest) = true → matchNl rest = none := by
  intro rest
  induction rest with
  | nil => intro c _ _; rfl
  | cons d rest' ih =>
    intro c hb hg
    have hp : pairOk c d = true := goodNlB_pair hg
    have hd_ne : d ≠ '\n' := by
      intro h
      subst h
      simp [pairOk, hb] at hp
    unfold matchNl
    by_cases hdb : isBlank d
    · simp only [hd_ne, if_false, hdb, if_true]
      exact ih d hdb (goodNlB_tail hg)
    · simp [hd_ne, hdb]

theorem dropBlanks_id_of_head {s : List Char}
    (h : ∀ x, s.head? = some x → isBlank x = false) : dropBlanks s = s := by
  cases s with
  | nil => rfl
  | cons c rest =>
    have := h c rfl
    simp [dropBlanks, this]

theorem dropBlanks_head_not_blank : ∀ (s : List Char) (x : Char),
    (dropBlanks s).head? = some x → isBlank x = false := by
  intro s
  induction s with
  | nil => intro x h; simp [dropBlanks] at h
  | cons c rest ih =>
    intro x h
    simp only [dropBlanks] at h
    by_cases hb : isBlank c
    · rw [if_pos hb] at h
      exact ih x h
    · rw [if_neg hb] at h
      simp only [List.head?_cons, Option.some.injEq] at h
      subst h
      simpa using hb

/-- The scan leaves every clean text unchanged. -/
theorem collapseNl_of_good : ∀ (n : Nat) (s : List Char), s.length ≤ n →
    goodNlB s = true → collapseNl s = s := by
  intro n
  induction n with
  | zero =>
    intro s hs _
    have : s = [] := List.length_eq_zero.mp (Nat.le_zero.mp hs)
    subst this; rfl
  | succ n ih =>
    intro s hs hg
    cases s with
    | nil => rfl
    | cons c rest =>
      rw [collapseNl_cons]
      by_cases hc : c = '\n'
      · subst hc
        have hm : matchNl ('\n' :: rest) = some rest := by simp [matchNl]
        rw [hm]
        have hdb : dropBlanks rest = rest := by
          refine dropBlanks_id_of_head ?_
          intro x hx
          cases rest with
          | nil => simp at hx
          | cons d rest' =>
            simp only [List.head?_cons, Option.some.injEq] at hx
            have hp : pairOk '\n' d = true := goodNlB_pair hg
            subst hx
            by_cases hbx : isBlank d
            · have hnl : isBlank '\n' = false := by decide
              simp [pairOk, hnl, hbx] at hp
            · simpa using hbx
        dsimp only
        rw [hdb, ih rest (by simpa using hs) (goodNlB_tail hg)]
      · have hm : matchNl (c :: rest) = none := by
          by_cases hb : isBlank c
          · rw [matchNl_cons_blank rest hb]
            exact matchNl_none_of_good rest c hb hg
          · simp [matchNl, hc, hb]
        rw [hm]
        dsimp only
        rw [ih rest (by simpa using hs) (goodNlB_tail hg)]

theorem collapseNl_head_of_none {s : List Char} (h : matchNl s = none) :
    (collapseNl s).head? = s.head? := by
  cases s with
  | nil => rfl
  | cons c rest =>
    rw [collapseNl_cons, h]
    rfl

theorem collapseNl_head_not_nl {s : List Char} (h : matchNl s = none) :
    (collapseNl s).head? ≠ some '\n' := by
  cases s with
  | nil => simp [collapseNl, collapseNlF]
  | cons c rest =>
    rw [collapseNl_cons, h]
    dsimp only
    intro hc
    rw [List.head?_cons] at hc
    injection hc with hc
    subst hc
    simp [matchNl] at h

theorem collapseNl_head_blank {s : List Char} {x : Char}
    (h : (collapseNl s).head? = some x) (hb : isBlank x = true) :
    matchNl s = none ∧ s.head? = some x := by
  cases s with
  | nil => simp [collapseNl, collapseNlF] at h
  | cons c rest =>
    rw [collapseNl_cons] at h
    cases hm : matchNl (c :: rest) with
    | some rem =>
      rw [hm] at h
      dsimp only at h
      simp only [List.head?_cons, Option.some.injEq] at h
      subst h
      exact absurd hb (by decide)
    | none =>
      rw [hm] at h
      dsimp only at h
      simp only [List.head?_cons, Option.some.injEq] at h
      exact ⟨rfl, by rw [List.head?_cons, h]⟩

/-- The scan always produces a clean text. -/
theorem goodNlB_collapseNl : ∀ (n : Nat) (s : List Char), s.length ≤ n →
    goodNlB (collapseNl s) = true := by
  intro n
  induction n with
  | zero =>
    intro s hs
    have : s = [] := List.length_eq_zero.mp (Nat.le_zero.mp hs)
    subst this; rfl
  | succ n ih =>
    intro s hs
    cases s with
    | nil => rfl
    | cons c rest =>
      rw [collapseNl_cons]
      cases hm : matchNl (c :: rest) with
      | some rem =>
        have hlen : (dropBlanks rem).length ≤ n := by
          have h1 := matchNl_length hm
          have h2 := dropBlanks_length rem
          simp only [List.length_cons] at hs h1
          omega
        rw [goodNlB_cons, Bool.and_eq_true]
        refine ⟨?_, ih _ hlen⟩
        cases hh : collapseNl (dropBlanks rem) with
        | nil => rfl
        | cons x l' =>
          have hx : (collapseNl (dropBlanks rem)).head? = some x := by
            rw [hh]; rfl
          by_cases hbx : isBlank x
          · obtain ⟨_, hhead⟩ := collapseNl_head_blank hx hbx
            exact absurd (dropBlanks_head_not_blank _ _ hhead) (by simp [hbx])
          · have hnl : isBlank '\n' = false := by decide
            have hbx' : isBlank x = false := by simpa using hbx
            simp [pairOk, hnl, hbx']
      | none =>
        have hrest : rest.length ≤ n := by
          simp only [List.length_cons] at hs; omega
        rw [goodNlB_cons, Bool.and_eq_true]
        refine ⟨?_, ih rest hrest⟩
        cases hh : collapseNl rest with
        | nil => rfl
        | cons x l' =>
          have hx : (collapseNl rest).head? = some x := by rw [hh]; rfl
          have hcn : c ≠ '\n' := by
            intro h; subst h; simp [matchNl] at hm
          by_cases hbc : isBlank c
          · have hmr : matchNl rest = none := by
              rw [matchNl_cons_blank rest hbc] at hm
              exact hm
            have hxn : x ≠ '\n' := by
              intro h
              subst h
              exact collapseNl_head_not_nl hmr hx
            have hbc' : isBlank c = true := by simpa using hbc
            simp [pairOk, hbc', hcn, hxn]
          · have hbc' : isBlank c = false := by simpa using hbc
            simp [pairOk, hbc', hcn]

theorem collapseNl_idem (s : List Char) :
    collapseNl (collapseNl s) = collapseNl s :=
  collapseNl_of_good (collapseNl s).length _ le_rfl
    (goodNlB_collapseNl s.length s le_rfl)


/-! ### C3 lemma suite: character-level fixed points -/

theorem startsWithSpace_cons (c : Char) (l : List Char) :
    startsWithSpace (c :: l) = decide (c = ' ') := by
  by_cases hc : c = ' '
  · subst hc; simp [startsWithSpace]
  · simp [startsWithSpace, hc]

theorem startsWithSpace_iff (s : List Char) :
    startsWithSpace s = true ↔ ∃ l, s = ' ' :: l := by
  cases s with
  | nil => simp [startsWithSpace]
  | cons c l => simp [startsWithSpace_cons, List.cons.injEq]

theorem noChar_iff (a : Char) (s : List Char) :
    noChar a s = true ↔ ∀ c ∈ s, c ≠ a := by
  simp [noChar, List.all_eq_true]

theorem replaceChar_cons (c : Char) (rest : List Char) (a b : Char) :
    replaceChar (c :: rest) a b = (if c = a then b else c) :: replaceChar rest a b := rfl

theorem replaceChar_of_noChar {a : Char} (b : Char) :
    ∀ {s : List Char}, noChar a s = true → replaceChar s a b = s := by
  intro s
  induction s with
  | nil => intro _; rfl
  | cons c rest ih =>
    intro h
    rw [noChar_iff] at h
    have hc : ¬ c = a := h c (List.mem_cons_self c rest)
    have hr : noChar a rest = true :=
      (noChar_iff a rest).mpr fun x hx => h x (List.mem_cons_of_mem c hx)
    rw [replaceChar_cons, if_neg hc, ih hr]

theorem noChar_replaceChar_self {a b : Char} (hba : ¬ b = a) (s : List Char) :
    noChar a (replaceChar s a b) = true := by
  rw [noChar_iff]
  intro c hc
  simp only [replaceChar, List.mem_map] at hc
  obtain ⟨x, _, hfx⟩ := hc
  by_cases hxa : x = a
  · rw [if_pos hxa] at hfx; subst hfx; exact hba
  · rw [if_neg hxa] at hfx; subst hfx; exact hxa

theorem noChar_replaceChar_other {x a b : Char} (hbx : ¬ b = x) {s : List Char}
    (h : noChar x s = true) : noChar x (replaceChar s a b) = true := by
  rw [noChar_iff] at h ⊢
  intro c hc
  simp only [replaceChar, List.mem_map] at hc
  obtain ⟨y, hy, hfy⟩ := hc
  by_cases hya : y = a
  · rw [if_pos hya] at hfy; subst hfy; exact hbx
  · rw [if_neg hya] at hfy; subst hfy; exact h y hy

theorem noChar_drop {a : Char} (n : Nat) {s : List Char} (h : noChar a s = true) :
    noChar a (List.drop n s) = true := by
  rw [noChar_iff] at h ⊢
  intro c hc
  exact h c (List.drop_subset n s hc)

theorem matchNl_none_of_noNl : ∀ {s : List Char}, noChar '\n' s = true → matchNl s = none := by
  intro s
  induction s with
  | nil => intro _; rfl
  | cons c rest ih =>
    intro h
    rw [noChar_iff] at h
    have hc : ¬ c = '\n' := h c (List.mem_cons_self c rest)
    have hr : noChar '\n' rest = true :=
      (noChar_iff _ rest).mpr fun x hx => h x (List.mem_cons_of_mem c hx)
    simp [matchNl, hc, ih hr]

theorem collapseNl_of_noNl : ∀ (n : Nat) (s : List Char), s.length ≤ n →
    noChar '\n' s = true → collapseNl s = s := by
  intro n
  induction n with
  | zero =>
    intro s hs _
    have : s = [] := List.length_eq_zero.mp (Nat.le_zero.mp hs)
    subst this; rfl
  | succ n ih =>
    intro s hs h
    cases s with
    | nil => rfl
    | cons c rest =>
      rw [collapseNl_cons, matchNl_none_of_noNl h]
      dsimp only
      have hr : noChar '\n' rest = true := by
        rw [noChar_iff] at h ⊢
        intro x hx
        exact h x (List.mem_cons_of_mem c hx)
      rw [ih rest (by simpa using hs) hr]

theorem noDbl_tail {a : Char} {l : List Char} (h : noDbl (a :: l) = true) :
    noDbl l = true := by
  cases l with
  | nil => rfl
  | cons b rest =>
    simp only [noDbl, Bool.and_eq_true] at h
    exact h.2

theorem noDbl_cons (a : Char) (l : List Char) :
    noDbl (a :: l) =
      ((match l with | [] => true | b :: _ => !(a = ' ' && b = ' ')) && noDbl l) := by
  cases l <;> simp [noDbl]

theorem noDbl_drop_one {s : List Char} (h : noDbl s = true) :
    noDbl (List.drop 1 s) = true := by
  cases s with
  | nil => rfl
  | cons a l => simpa using noDbl_tail h

theorem goodNlB_drop_one {s : List Char} (h : goodNlB s = true) :
    goodNlB (List.drop 1 s) = true := by
  cases s with
  | nil => rfl
  | cons a l => simpa using goodNlB_tail h

theorem startsWithSpace_drop_of_noDbl {s : List Char} (hdb : noDbl s = true)
    (hs : startsWithSpace s = true) : startsWithSpace (List.drop 1 s) = false := by
  obtain ⟨l, rfl⟩ := (startsWithSpace_iff s).mp hs
  simp only [List.drop_succ_cons, List.drop_zero]
  cases l with
  | nil => rfl
  | cons b r =>
    have hb : ¬ b = ' ' := by
      simp only [noDbl, Bool.and_eq_true] at hdb
      simpa using hdb.1
    simp [startsWithSpace_cons, hb]

theorem dropSpaces_id_of_head {s : List Char}
    (h : ∀ x, s.head? = some x → ¬ x = ' ') : dropSpaces s = s := by
  cases s with
  | nil => rfl
  | cons c rest => simp [dropSpaces, h c rfl]

theorem dropSpaces_head_not_space : ∀ (s : List Char) (x : Char),
    (dropSpaces s).head? = some x → ¬ x = ' ' := by
  intro s
  induction s with
  | nil => intro x hx; simp [dropSpaces] at hx
  | cons c rest ih =>
    intro x hx
    by_cases hc : c = ' '
    · rw [show dropSpaces (c :: rest) = dropSpaces rest from by simp [dropSpaces, hc]] at hx
      exact ih x hx
    · rw [show dropSpaces (c :: rest) = c :: rest from by simp [dropSpaces, hc]] at hx
      simp only [List.head?_cons, Option.some.injEq] at hx
      subst hx; exact hc

theorem dropSpaces_subset : ∀ (s : List Char) (c : Char), c ∈ dropSpaces s → c ∈ s := by
  intro s
  induction s with
  | nil => intro c h; simp [dropSpaces] at h
  | cons a rest ih =>
    intro c h
    by_cases ha : a = ' '
    · rw [show dropSpaces (a :: rest) = dropSpaces rest from by simp [dropSpaces, ha]] at h
      exact List.mem_cons_of_mem a (ih c h)
    · rwa [show dropSpaces (a :: rest) = a :: rest from by simp [dropSpaces, ha]] at h

theorem collapseSp_head : ∀ (s : List Char), (collapseSp s).head? = s.head? := by
  intro s
  cases s with
  | nil => rfl
  | cons c rest =>
    rw [collapseSp_cons]
    by_cases hc : c = ' '
    · rw [if_pos hc, hc]
      rfl
    · rw [if_neg hc]
      rfl

theorem collapseSp_subset : ∀ (n : Nat) (s : List Char), s.length ≤ n →
    ∀ c, c ∈ collapseSp s → c ∈ s := by
  intro n
  induction n with
  | zero =>
    intro s hs c hc
    have : s = [] := List.length_eq_zero.mp (Nat.le_zero.mp hs)
    subst this; simp [collapseSp, collapseSpF] at hc
  | succ n ih =>
    intro s hs c hc
    cases s with
    | nil => simp [collapseSp, collapseSpF] at hc
    | cons a rest =>
      rw [collapseSp_cons] at hc
      by_cases ha : a = ' '
      · rw [if_pos ha] at hc
        rcases List.mem_cons.mp hc with h | h
        · subst h; rw [ha]; exact List.mem_cons_self _ _
        · have hlen : (dropSpaces rest).length ≤ n :=
            le_trans (dropSpaces_length rest) (by simpa using hs)
          exact List.mem_cons_of_mem a (dropSpaces_subset rest c (ih _ hlen c h))
      · rw [if_neg ha] at hc
        rcases List.mem_cons.mp hc with h | h
        · subst h; exact List.mem_cons_self _ _
        · have hlen : rest.length ≤ n := by simpa using hs
          exact List.mem_cons_of_mem a (ih rest hlen c h)

theorem noChar_collapseSp {a : Char} {s : List Char} (h : noChar a s = true) :
    noChar a (collapseSp s) = true := by
  rw [noChar_iff] at h ⊢
  intro c hc
  exact h c (collapseSp_subset s.length s le_rfl c hc)

theorem noDbl_collapseSp : ∀ (n : Nat) (s : List Char), s.length ≤ n →
    noDbl (collapseSp s) = true := by
  intro n
  induction n with
  | zero =>
    intro s hs
    have : s = [] := List.length_eq_zero.mp (Nat.le_zero.mp hs)
    subst this; rfl
  | succ n ih =>
    intro s hs
    cases s with
    | nil => rfl
    | cons c rest =>
      rw [collapseSp_cons]
      by_cases hc : c = ' '
      · rw [if_pos hc]
        have hlen : (dropSpaces rest).length ≤ n :=
          le_trans (dropSpaces_length rest) (by simpa using hs)
        rw [noDbl_cons, Bool.and_eq_true]
        refine ⟨?_, ih _ hlen⟩
        cases hh : collapseSp (dropSpaces rest) with
        | nil => rfl
        | cons x l' =>
          have hx : (dropSpaces rest).head? = some x := by
            rw [← collapseSp_head, hh]; rfl
          have hxs : ¬ x = ' ' := dropSpaces_head_not_space _ _ hx
          simp [hxs]
      · rw [if_neg hc]
        have hlen : rest.length ≤ n := by simpa using hs
        rw [noDbl_cons, Bool.and_eq_true]
        refine ⟨?_, ih _ hlen⟩
        cases hh : collapseSp rest with
        | nil => rfl
        | cons x l' => simp [hc]

theorem collapseSp_of_noDbl : ∀ (n : Nat) (s : List Char), s.length ≤ n →
    noDbl s = true → collapseSp s = s := by
  intro n
  induction n with
  | zero =>
    intro s hs _
    have : s = [] := List.length_eq_zero.mp (Nat.le_zero.mp hs)
    subst this; rfl
  | succ n ih =>
    intro s hs hdb
    cases s with
    | nil => rfl
    | cons c rest =>
      rw [collapseSp_cons]
      by_cases hc : c = ' '
      · rw [if_pos hc]
        have hd : dropSpaces rest = rest := by
          refine dropSpaces_id_of_head ?_
          intro x hx
          cases rest with
          | nil => simp at hx
          | cons b r =>
            simp only [List.head?_cons, Option.some.injEq] at hx
            subst hx
            rw [hc] at hdb
            simp only [noDbl, Bool.and_eq_true] at hdb
            simpa using hdb.1
        rw [hd, ih rest (by simpa using hs) (noDbl_tail hdb), hc]
      · rw [if_neg hc, ih rest (by simpa using hs) (noDbl_tail hdb)]


theorem pairOk_map {f : Char → Char}
    (hb : ∀ c, isBlank (f c) = true → isBlank c = true)
    (hn : ∀ c, f c = '\n' → c = '\n')
    {a b : Char} (h : pairOk a b = true) : pairOk (f a) (f b) = true := by
  unfold pairOk at h
  rw [Bool.and_eq_true, Bool.not_eq_true', Bool.not_eq_true'] at h
  obtain ⟨hX, hY⟩ := h
  have hX' : (isBlank (f a) && decide (f b = '\n')) = false := by
    cases hfa : isBlank (f a)
    · rfl
    · cases hfb : decide (f b = '\n')
      · rfl
      · exfalso
        have h1 : isBlank a = true := hb a hfa
        have h2 : b = '\n' := hn b (of_decide_eq_true hfb)
        rw [h1, h2] at hX
        simp at hX
  have hY' : (decide (f a = '\n') && isBlank (f b)) = false := by
    cases hfa : decide (f a = '\n')
    · rfl
    · cases hfb : isBlank (f b)
      · rfl
      · exfalso
        have h1 : a = '\n' := hn a (of_decide_eq_true hfa)
        have h2 : isBlank b = true := hb b hfb
        rw [h1, h2] at hY
        simp at hY
  unfold pairOk
  rw [hX', hY']
  rfl

theorem goodNlB_map {f : Char → Char}
    (hb : ∀ c, isBlank (f c) = true → isBlank c = true)
    (hn : ∀ c, f c = '\n' → c = '\n') :
    ∀ {s : List Char}, goodNlB s = true → goodNlB (List.map f s) = true := by
  intro s
  induction s with
  | nil => intro _; rfl
  | cons a l ih =>
    intro h
    cases l with
    | nil => rfl
    | cons b r =>
      rw [List.map_cons, List.map_cons]
      simp only [goodNlB, Bool.and_eq_true] at h ⊢
      refine ⟨pairOk_map hb hn h.1, ?_⟩
      rw [← List.map_cons]
      exact ih h.2

theorem goodNlB_replace_tab {s : List Char} (h : goodNlB s = true) :
    goodNlB (replaceChar s '\t' ' ') = true := by
  unfold replaceChar
  refine goodNlB_map ?_ ?_ h
  · intro c hc
    by_cases h1 : c = '\t'
    · rw [h1]; decide
    · rwa [if_neg h1] at hc
  · intro c hc
    by_cases h1 : c = '\t'
    · rw [if_pos h1] at hc
      exact absurd hc (by decide)
    · rwa [if_neg h1] at hc

theorem goodNlB_replace_space_nbsp {s : List Char} (h : goodNlB s = true) :
    goodNlB (replaceChar s ' ' nbsp) = true := by
  unfold replaceChar
  refine goodNlB_map ?_ ?_ h
  · intro c hc
    by_cases h1 : c = ' '
    · rw [if_pos h1] at hc
      exact absurd hc (by decide)
    · rwa [if_neg h1] at hc
  · intro c hc
    by_cases h1 : c = ' '
    · rw [if_pos h1] at hc
      exact absurd hc (by decide)
    · rwa [if_neg h1] at hc

theorem goodNl_dropSpaces_after_space : ∀ (rest : List Char),
    goodNlB (' ' :: rest) = true →
    goodNlB (dropSpaces rest) = true ∧
      ∀ x, (dropSpaces rest).head? = some x → ¬ x = '\n' := by
  intro rest
  induction rest with
  | nil =>
    intro _
    exact ⟨rfl, by intro x hx; simp [dropSpaces] at hx⟩
  | cons b r ih =>
    intro h
    have hp : pairOk ' ' b = true := goodNlB_pair h
    have hbn : ¬ b = '\n' := by
      intro hb
      subst hb
      exact absurd hp (by decide)
    by_cases hb : b = ' '
    · subst hb
      rw [show dropSpaces (' ' :: r) = dropSpaces r from by simp [dropSpaces]]
      exact ih (goodNlB_tail h)
    · rw [show dropSpaces (b :: r) = b :: r from by simp [dropSpaces, hb]]
      refine ⟨goodNlB_tail h, ?_⟩
      intro x hx
      simp only [List.head?_cons, Option.some.injEq] at hx
      subst hx
      exact hbn

theorem goodNlB_collapseSp : ∀ (n : Nat) (s : List Char), s.length ≤ n →
    goodNlB s = true → goodNlB (collapseSp s) = true := by
  intro n
  induction n with
  | zero =>
    intro s hs _
    have : s = [] := List.length_eq_zero.mp (Nat.le_zero.mp hs)
    subst this; rfl
  | succ n ih =>
    intro s hs hg
    cases s with
    | nil => rfl
    | cons c rest =>
      rw [collapseSp_cons]
      by_cases hc : c = ' '
      · subst hc
        rw [if_pos rfl]
        obtain ⟨hgd, hhd⟩ := goodNl_dropSpaces_after_space rest hg
        have hlen : (dropSpaces rest).length ≤ n :=
          le_trans (dropSpaces_length rest) (by simpa using hs)
        rw [goodNlB_cons, Bool.and_eq_true]
        refine ⟨?_, ih _ hlen hgd⟩
        cases hh : collapseSp (dropSpaces rest) with
        | nil => rfl
        | cons x l' =>
          have hx : (dropSpaces rest).head? = some x := by
            rw [← collapseSp_head, hh]; rfl
          have hxn := hhd x hx
          have h1 : isBlank ' ' = true := by decide
          have h2 : ¬ (' ' : Char) = '\n' := by decide
          simp [pairOk, h1, h2, hxn]
      · rw [if_neg hc]
        have hlen : rest.length ≤ n := by simpa using hs
        rw [goodNlB_cons, Bool.and_eq_true]
        refine ⟨?_, ih rest hlen (goodNlB_tail hg)⟩
        cases hh : collapseSp rest with
        | nil => rfl
        | cons x l' =>
          have hx : rest.head? = some x := by rw [← collapseSp_head, hh]; rfl
          cases rest with
          | nil => simp at hx
          | cons b r =>
            simp only [List.head?_cons, Option.some.injEq] at hx
            subst hx
            show pairOk c b = true
            exact goodNlB_pair hg


/-! ### C3 lemma suite: the per-text-box step -/

theorem processText_normal (ws : String) (hw : ws = "normal" ∨ ws = "nowrap")
    (t : List Char) (p : Bool) :
    processText ws t p =
      ((if p && startsWithSpace (collapseSp (replaceChar (replaceChar (collapseNl t) '\n' ' ') '\t' ' '))
          then List.drop 1 (collapseSp (replaceChar (replaceChar (collapseNl t) '\n' ' ') '\t' ' '))
          else collapseSp (replaceChar (replaceChar (collapseNl t) '\n' ' ') '\t' ' ')),
       endsWithSpace (if p && startsWithSpace (collapseSp (replaceChar (replaceChar (collapseNl t) '\n' ' ') '\t' ' '))
          then List.drop 1 (collapseSp (replaceChar (replaceChar (collapseNl t) '\n' ' ') '\t' ' '))
          else collapseSp (replaceChar (replaceChar (collapseNl t) '\n' ' ') '\t' ' '))) := by
  rcases hw with h | h <;> subst h <;> rfl

theorem processText_preline (t : List Char) (p : Bool) :
    processText "pre-line" t p =
      ((if p && startsWithSpace (collapseSp (replaceChar (collapseNl t) '\t' ' '))
          then List.drop 1 (collapseSp (replaceChar (collapseNl t) '\t' ' '))
          else collapseSp (replaceChar (collapseNl t) '\t' ' ')),
       endsWithSpace (if p && startsWithSpace (collapseSp (replaceChar (collapseNl t) '\t' ' '))
          then List.drop 1 (collapseSp (replaceChar (collapseNl t) '\t' ' '))
          else collapseSp (replaceChar (collapseNl t) '\t' ' '))) := rfl

theorem processText_pre (t : List Char) (p : Bool) :
    processText "pre" t p = (replaceChar (collapseNl t) ' ' nbsp, false) := rfl

theorem processText_other (ws : String) (h1 : ¬ ws = "normal") (h2 : ¬ ws = "nowrap")
    (h3 : ¬ ws = "pre") (h4 : ¬ ws = "pre-wrap") (h5 : ¬ ws = "pre-line")
    (t : List Char) (p : Bool) :
    processText ws t p = (collapseNl t, false) := by
  simp [processText, h1, h2, h3, h4, h5]

/-- The properties of the output of the normal and nowrap branch that make
the second run the identity. -/
theorem processText_normal_out (ws : String) (hw : ws = "normal" ∨ ws = "nowrap")
    (t : List Char) (p : Bool) :
    noChar '\n' (processText ws t p).1 = true ∧
    noChar '\t' (processText ws t p).1 = true ∧
    noDbl (processText ws t p).1 = true ∧
    (p && startsWithSpace (processText ws t p).1) = false ∧
    (processText ws t p).2 = endsWithSpace (processText ws t p).1 := by
  rw [processText_normal ws hw t p]
  have hnl4 : noChar '\n'
      (collapseSp (replaceChar (replaceChar (collapseNl t) '\n' ' ') '\t' ' ')) = true :=
    noChar_collapseSp (noChar_replaceChar_other (by decide)
      (noChar_replaceChar_self (by decide) _))
  have htab4 : noChar '\t'
      (collapseSp (replaceChar (replaceChar (collapseNl t) '\n' ' ') '\t' ' ')) = true :=
    noChar_collapseSp (noChar_replaceChar_self (by decide) _)
  have hdb4 : noDbl
      (collapseSp (replaceChar (replaceChar (collapseNl t) '\n' ' ') '\t' ' ')) = true :=
    noDbl_collapseSp _ _ le_rfl
  refine ⟨?_, ?_, ?_, ?_, rfl⟩
  · dsimp only
    split
    · exact noChar_drop 1 hnl4
    · exact hnl4
  · dsimp only
    split
    · exact noChar_drop 1 htab4
    · exact htab4
  · dsimp only
    split
    · exact noDbl_drop_one hdb4
    · exact hdb4
  · dsimp only
    split
    · rename_i hc
      rw [Bool.and_eq_true] at hc
      rw [startsWithSpace_drop_of_noDbl hdb4 hc.2]
      rw [Bool.and_false]
    · rename_i hc
      exact Bool.eq_false_iff.mpr hc

/-- The same properties for the pre-line branch, with cleanliness in place
of the absence of newlines. -/
theorem processText_preline_out (t : List Char) (p : Bool) :
    goodNlB (processText "pre-line" t p).1 = true ∧
    noChar '\t' (processText "pre-line" t p).1 = true ∧
    noDbl (processText "pre-line" t p).1 = true ∧
    (p && startsWithSpace (processText "pre-line" t p).1) = false ∧
    (processText "pre-line" t p).2 = endsWithSpace (processText "pre-line" t p).1 := by
  rw [processText_preline t p]
  have hg4 : goodNlB (collapseSp (replaceChar (collapseNl t) '\t' ' ')) = true :=
    goodNlB_collapseSp _ _ le_rfl
      (goodNlB_replace_tab (goodNlB_collapseNl t.length t le_rfl))
  have htab4 : noChar '\t' (collapseSp (replaceChar (collapseNl t) '\t' ' ')) = true :=
    noChar_collapseSp (noChar_replaceChar_self (by decide) _)
  have hdb4 : noDbl (collapseSp (replaceChar (collapseNl t) '\t' ' ')) = true :=
    noDbl_collapseSp _ _ le_rfl
  refine ⟨?_, ?_, ?_, ?_, rfl⟩
  · dsimp only
    split
    · exact goodNlB_drop_one hg4
    · exact hg4
  · dsimp only
    split
    · exact noChar_drop 1 htab4
    · exact htab4
  · dsimp only
    split
    · exact noDbl_drop_one hdb4
    · exact hdb4
  · dsimp only
    split
    · rename_i hc
      rw [Bool.and_eq_true] at hc
      rw [startsWithSpace_drop_of_noDbl hdb4 hc.2]
      rw [Bool.and_false]
    · rename_i hc
      exact Bool.eq_false_iff.mpr hc

/-- A text with the output properties of the normal branch is a fixed
point of the normal branch. -/
theorem processText_fix_normal (ws : String) (hw : ws = "normal" ∨ ws = "nowrap")
    (u : List Char) (p : Bool)
    (hnl : noChar '\n' u = true) (htab : noChar '\t' u = true)
    (hdb : noDbl u = true) (hcond : (p && startsWithSpace u) = false) :
    processText ws u p = (u, endsWithSpace u) := by
  rw [processText_normal ws hw u p]
  rw [collapseNl_of_noNl u.length u le_rfl hnl,
      replaceChar_of_noChar ' ' hnl,
      replaceChar_of_noChar ' ' htab,
      collapseSp_of_noDbl u.length u le_rfl hdb,
      hcond]
  simp

/-- A text with the output properties of the pre-line branch is a fixed
point of the pre-line branch. -/
theorem processText_fix_preline (u : List Char) (p : Bool)
    (hg : goodNlB u = true) (htab : noChar '\t' u = true)
    (hdb : noDbl u = true) (hcond : (p && startsWithSpace u) = false) :
    processText "pre-line" u p = (u, endsWithSpace u) := by
  rw [processText_preline u p]
  rw [collapseNl_of_good u.length u le_rfl hg,
      replaceChar_of_noChar ' ' htab,
      collapseSp_of_noDbl u.length u le_rfl hdb,
      hcond]
  simp

/-- The per-text-box step is idempotent at every handling mode other than
pre-wrap, for a fixed incoming flag. -/
theorem processText_idem (ws : String) (t : List Char) (p : Bool)
    (hw : ¬ ws = "pre-wrap") :
    processText ws (processText ws t p).1 p = processText ws t p := by
  by_cases h1 : ws = "normal" ∨ ws = "nowrap"
  · obtain ⟨hnl, htab, hdb, hcond, hflag⟩ := processText_normal_out ws h1 t p
    rw [processText_fix_normal ws h1 (processText ws t p).1 p hnl htab hdb hcond,
        ← hflag]
  · by_cases h2 : ws = "pre"
    · subst h2
      rw [processText_pre t p]
      dsimp only
      rw [processText_pre _ p]
      have hg : goodNlB (replaceChar (collapseNl t) ' ' nbsp) = true :=
        goodNlB_replace_space_nbsp (goodNlB_collapseNl t.length t le_rfl)
      have hs : noChar ' ' (replaceChar (collapseNl t) ' ' nbsp) = true :=
        noChar_replaceChar_self (by decide) _
      rw [collapseNl_of_good _ _ le_rfl hg, replaceChar_of_noChar nbsp hs]
    · by_cases h3 : ws = "pre-line"
      · subst h3
        obtain ⟨hg, htab, hdb, hcond, hflag⟩ := processText_preline_out t p
        rw [processText_fix_preline (processText "pre-line" t p).1 p hg htab hdb hcond,
            ← hflag]
      · push_neg at h1
        rw [processText_other ws h1.1 h1.2 h2 hw h3 t p]
        dsimp only
        rw [processText_other ws h1.1 h1.2 h2 hw h3 _ p, collapseNl_idem]


/-! ### C3 lemma suite: the tree-level pass -/

theorem pwBox_truthy_none (k : BoxKind) (e : Element) (txt : Option (List Char)) (p : Bool)
    (ht : truthy txt = true) :
    pwBox (.mk k e .none txt) p =
      (.mk k e .none (some (processText e.white_space (txt.getD []) p).1),
       (processText e.white_space (txt.getD []) p).2) := by
  dsimp only [pwBox]
  rw [if_pos ht]

theorem pwBox_not_truthy_none (k : BoxKind) (e : Element) (txt : Option (List Char)) (p : Bool)
    (ht : ¬ truthy txt = true) :
    pwBox (.mk k e .none txt) p = (.mk k e .none txt, p) := by
  dsimp only [pwBox]
  rw [if_neg ht]

theorem pwBox_truthy_some (k : BoxKind) (e : Element) (l : BoxList)
    (txt : Option (List Char)) (p : Bool) (ht : truthy txt = true) :
    pwBox (.mk k e (.some l) txt) p =
      (.mk k e (.some (pwList l (processText e.white_space (txt.getD []) p).2).1)
         (some (processText e.white_space (txt.getD []) p).1),
       (pwList l (processText e.white_space (txt.getD []) p).2).2) := by
  dsimp only [pwBox]
  rw [if_pos ht]

theorem pwBox_not_truthy_some (k : BoxKind) (e : Element) (l : BoxList)
    (txt : Option (List Char)) (p : Bool) (ht : ¬ truthy txt = true) :
    pwBox (.mk k e (.some l) txt) p =
      (.mk k e (.some (pwList l p).1) txt, (pwList l p).2) := by
  dsimp only [pwBox]
  rw [if_neg ht]

theorem pwList_cons (b : Box) (rest : BoxList) (p : Bool) :
    pwList (.cons b rest) p =
      (.cons (pwBox b p).1 (pwList rest (pwBox b p).2).1,
       (pwList rest (pwBox b p).2).2) := rfl

theorem pwOkBox_truthy_none (k : BoxKind) (e : Element) (txt : Option (List Char)) (p : Bool)
    (ht : truthy txt = true) :
    pwOkBox (.mk k e .none txt) p =
      ((!(e.white_space = "pre-wrap")) &&
         !(processText e.white_space (txt.getD []) p).1.isEmpty,
       (processText e.white_space (txt.getD []) p).2) := by
  dsimp only [pwOkBox]
  rw [if_pos ht]

theorem pwOkBox_not_truthy_none (k : BoxKind) (e : Element) (txt : Option (List Char))
    (p : Bool) (ht : ¬ truthy txt = true) :
    pwOkBox (.mk k e .none txt) p = (true, p) := by
  dsimp only [pwOkBox]
  rw [if_neg ht]

theorem pwOkBox_truthy_some (k : BoxKind) (e : Element) (l : BoxList)
    (txt : Option (List Char)) (p : Bool) (ht : truthy txt = true) :
    pwOkBox (.mk k e (.some l) txt) p =
      (((!(e.white_space = "pre-wrap")) &&
          !(processText e.white_space (txt.getD []) p).1.isEmpty) &&
         (pwOkList l (processText e.white_space (txt.getD []) p).2).1,
       (pwOkList l (processText e.white_space (txt.getD []) p).2).2) := by
  dsimp only [pwOkBox]
  rw [if_pos ht]

theorem pwOkBox_not_truthy_some (k : BoxKind) (e : Element) (l : BoxList)
    (txt : Option (List Char)) (p : Bool) (ht : ¬ truthy txt = true) :
    pwOkBox (.mk k e (.some l) txt) p =
      (true && (pwOkList l p).1, (pwOkList l p).2) := by
  dsimp only [pwOkBox]
  rw [if_neg ht]

theorem pwOkList_cons (b : Box) (rest : BoxList) (p : Bool) :
    pwOkList (.cons b rest) p =
      ((pwOkBox b p).1 && (pwOkList rest (pwOkBox b p).2).1,
       (pwOkList rest (pwOkBox b p).2).2) := rfl

/-- The side-condition pass threads the collapsible-space flag exactly as
the white-space pass does, over lists of boxes. -/
theorem pwOkList_flag : ∀ (l : BoxList) (p : Bool), (pwOkList l p).2 = (pwList l p).2 := by
  refine boxListInduct (fun b => ∀ p, (pwOkBox b p).2 = (pwBox b p).2)
    (fun l => ∀ p, (pwOkList l p).2 = (pwList l p).2) ?_ ?_ ?_ ?_
  · intro k e txt p
    by_cases ht : truthy txt = true
    · rw [pwOkBox_truthy_none k e txt p ht, pwBox_truthy_none k e txt p ht]
    · rw [pwOkBox_not_truthy_none k e txt p ht, pwBox_not_truthy_none k e txt p ht]
  · intro k e l txt hQ p
    by_cases ht : truthy txt = true
    · rw [pwOkBox_truthy_some k e l txt p ht, pwBox_truthy_some k e l txt p ht]
      exact hQ _
    · rw [pwOkBox_not_truthy_some k e l txt p ht, pwBox_not_truthy_some k e l txt p ht]
      exact hQ _
  · intro p
    rfl
  · intro b rest hP hQ p
    rw [pwOkList_cons, pwList_cons]
    dsimp only
    rw [hP p, hQ _]

/-- The flag threading agreement for a single box. -/
theorem pwOkBox_flag (b : Box) (p : Bool) : (pwOkBox b p).2 = (pwBox b p).2 := by
  have h := pwOkList_flag (.cons b .nil) p
  rw [pwOkList_cons, pwList_cons] at h
  dsimp only [pwOkList, pwList] at h
  exact h

/-- Under the side conditions, the white-space pass over a list of boxes
is idempotent at every incoming flag. -/
theorem pwList_idem : ∀ (l : BoxList) (p : Bool), (pwOkList l p).1 = true →
    pwList (pwList l p).1 p = pwList l p := by
  refine boxListInduct
    (fun b => ∀ p, (pwOkBox b p).1 = true → pwBox (pwBox b p).1 p = pwBox b p)
    (fun l => ∀ p, (pwOkList l p).1 = true → pwList (pwList l p).1 p = pwList l p)
    ?_ ?_ ?_ ?_
  · intro k e txt p hok
    by_cases ht : truthy txt = true
    · rw [pwOkBox_truthy_none k e txt p ht] at hok
      dsimp only at hok
      rw [Bool.and_eq_true] at hok
      obtain ⟨hws, hne⟩ := hok
      have hws' : ¬ e.white_space = "pre-wrap" := by simpa using hws
      rw [pwBox_truthy_none k e txt p ht]
      dsimp only
      have ht2 : truthy (some (processText e.white_space (txt.getD []) p).1) = true := by
        dsimp only [truthy]
        simpa using hne
      rw [pwBox_truthy_none k e _ p ht2]
      simp only [Option.getD_some]
      rw [processText_idem e.white_space (txt.getD []) p hws']
    · rw [pwBox_not_truthy_none k e txt p ht]
      dsimp only
      rw [pwBox_not_truthy_none k e txt p ht]
  · intro k e l txt hQ p hok
    by_cases ht : truthy txt = true
    · rw [pwOkBox_truthy_some k e l txt p ht] at hok
      dsimp only at hok
      rw [Bool.and_eq_true, Bool.and_eq_true] at hok
      obtain ⟨⟨hws, hne⟩, hlok⟩ := hok
      have hws' : ¬ e.white_space = "pre-wrap" := by simpa using hws
      rw [pwBox_truthy_some k e l txt p ht]
      dsimp only
      have ht2 : truthy (some (processText e.white_space (txt.getD []) p).1) = true := by
        dsimp only [truthy]
        simpa using hne
      rw [pwBox_truthy_some k e _ _ p ht2]
      simp only [Option.getD_some]
      rw [processText_idem e.white_space (txt.getD []) p hws']
      rw [hQ _ hlok]
    · rw [pwOkBox_not_truthy_some k e l txt p ht] at hok
      dsimp only at hok
      rw [Bool.true_and] at hok
      rw [pwBox_not_truthy_some k e l txt p ht]
      dsimp only
      rw [pwBox_not_truthy_some k e _ txt p ht]
      rw [hQ p hok]
  · intro p _
    rfl
  · intro b rest hP hQ p hok
    rw [pwOkList_cons] at hok
    dsimp only at hok
    rw [Bool.and_eq_true] at hok
    obtain ⟨hob, hor⟩ := hok
    rw [pwOkBox_flag b p] at hor
    rw [pwList_cons]
    dsimp only
    rw [pwList_cons, hP p hob, hQ _ hor]


/-- Under the side conditions, the white-space pass on a single box is
idempotent at every incoming flag. -/
theorem pwBox_idem (b : Box) (p : Bool) (hok : (pwOkBox b p).1 = true) :
    pwBox (pwBox b p).1 p = pwBox b p := by
  have hokl : (pwOkList (.cons b .nil) p).1 = true := by
    rw [pwOkList_cons]
    dsimp only [pwOkList]
    simp [hok]
  have h := pwList_idem (.cons b .nil) p hokl
  rw [pwList_cons] at h
  dsimp only [pwList] at h
  have h1 := congrArg Prod.fst h
  have h2 := congrArg Prod.snd h
  dsimp at h1 h2
  injection h1 with h1a h1b
  exact Prod.ext h1a h2

/-- C3 (amended): whenever every text box processed by the white-space
pass has a handling mode other than pre-wrap and a non-empty processed
text (the side conditions computed by pwOkBox), running the pass twice
yields the same tree as running it once. -/
theorem C3_amended_idempotent (b : Box) (hok : (pwOkBox b false).1 = true) :
    process_whitespace (process_whitespace b) = process_whitespace b :=
  congrArg Prod.fst (pwBox_idem b false hok)

/-- C3 counterexample: the claim fails as stated for the pre-wrap mode,
where each run appends a further zero-width space after a trailing
non-breaking-space run, and for the normal mode when a text box collapses
to the empty string, which desynchronizes the collapsible-space flag of
the second run and strips a space the first run kept. -/
theorem C3_counterexample :
    textAtPath (process_whitespace (process_whitespace c3PreWrapTree)) [0] ≠
      textAtPath (process_whitespace c3PreWrapTree) [0] ∧
    textAtPath (process_whitespace (process_whitespace c3EmptyTree)) [2] ≠
      textAtPath (process_whitespace c3EmptyTree) [2] := by
  constructor
  · decide
  · decide

/-- C3 witness: the amended idempotence theorem applied to the concrete
two-text-box tree of the cross-box collapsing scenario. -/
theorem C3_witness :
    (pwOkBox c8Tree false).1 = true ∧
    process_whitespace (process_whitespace c8Tree) = process_whitespace c8Tree :=
  ⟨by decide, C3_amended_idempotent c8Tree (by decide)⟩

end Weasy
